import Mathlib

/-!
Verification development for an Ansible MCP server repository.

The repository exposes automation-engine operations (run a playbook, run an
ad-hoc command, read and write inventory and playbook definitions) through a
tool-oriented request/response protocol.  This file gives a shallow embedding
of the data model and the operations referenced by the specification claims:

* the insertion-ordered dictionaries pervasive in the Python source are
  embedded as association lists with Python dict assignment semantics
  (replace-in-place on an existing key, append on a fresh key);
* the inventory/playbook codec (`_create_temp_inventory`, `load_inventory`,
  `_create_temp_playbook`, `load_playbook` in `ansible_client/client.py`);
* the event stream translator (`_process_events` and the ad-hoc result
  collapsing loop);
* the ad-hoc module argument serializer;
* the execution session manager (`_prepare_runner_config`, `run_playbook`,
  `run_ad_hoc_command`), with external effects (filesystem failures, engine
  behaviour) supplied by an explicit environment record;
* the tool registry of `mcp/server/fastmcp.py`.

Python strings are embedded as `String` (for the argument serializer, whose
claims are about exact character layout, as `List Char` internally), unbounded
Python ints as `Int`, and arbitrary JSON-like leaf values by an opaque type
parameter `V` where the code never inspects them.
-/

namespace AnsibleSpec

/-! ## Insertion-ordered dictionaries (Python `dict`) as association lists -/

/-- Lookup in an insertion-ordered dictionary: first binding for the key. -/
def alookup {α : Type} : List (String × α) → String → Option α
  | [], _ => none
  | (k, v) :: d, q => if k = q then some v else alookup d q

/-- Python dict assignment `d[k] = v`: replace the value in place if the key
is present, otherwise append the new binding at the end. -/
def ainsert {α : Type} : List (String × α) → String → α → List (String × α)
  | [], k, v => [(k, v)]
  | (k', v') :: d, k, v =>
      if k' = k then (k', v) :: d else (k', v') :: ainsert d k v

/-- Python `d.setdefault(k, []).append(v)`: append `v` to the list stored at
`k`, creating the binding with `[v]` if the key is absent.  This is the shape
of the `host_groups` accumulation in `load_inventory`. -/
def apushVal : List (String × List String) → String → String → List (String × List String)
  | [], k, v => [(k, [v])]
  | (k', vs) :: d, k, v =>
      if k' = k then (k', vs ++ [v]) :: d else (k', vs) :: apushVal d k v

/-- Keys of a dictionary, in insertion order. -/
def akeys {α : Type} (d : List (String × α)) : List String :=
  d.map Prod.fst

/-- Python truthiness of an optional string: `None` and the empty string are
falsy, so both behave as an absent value in conditions such as
`if config.inventory_path:`. -/
def pyOptStr : Option String → Option String
  | none => none
  | some s => if s = "" then none else some s

/-- Python truthiness of an optional int (`if config.timeout:`): `None` and
`0` are falsy. -/
def pyOptInt : Option Int → Option Int
  | none => none
  | some n => if n = 0 then none else some n

/-! ## Tool registry (`mcp/server/fastmcp.py`, `FastMCP.tool`)

The decorator stores the handler function, its docstring and the request model
derived from its signature in the `self.tools` dictionary.  The handler and
request model are opaque to the registry, so they are embedded as an opaque
payload record. -/

/-- One entry of `FastMCP.tools`: the stored handler (opaque id standing for
the Python function object) and derived metadata. -/
structure ToolInfo where
  func : Nat
  doc : String
  deriving DecidableEq

/-- The registry state `self.tools` of a `FastMCP` instance. -/
def ToolRegistry : Type := List (String × ToolInfo)

/-- Registration of a tool (`fastmcp.py:103`): the body of the decorator ends
in the plain dict assignment `self.tools[tool_name] = ...`.  There is no
presence check and no error path. -/
def toolRegister (t : ToolRegistry) (name : String) (info : ToolInfo) : ToolRegistry :=
  ainsert t name info

/-- Lookup of a registered tool by name. -/
def toolLookup (t : ToolRegistry) (name : String) : Option ToolInfo :=
  alookup t name

/-! ## Engine run events and the event stream translator
(`ansible_client/client.py`, `_process_events`) -/

/-- The `event_data` payload of one engine event.  Result payloads are string
maps over opaque leaf values `V`; the translator never inspects them. -/
structure EventDataM (V : Type) where
  task : Option String
  host : Option String
  changed : Option Bool
  res : Option (List (String × V))

/-- One engine event: the `event` kind tag plus its `event_data`. -/
structure RunEventM (V : Type) where
  kind : String
  data : EventDataM V

/-- A single translated task result (`models.TaskResult`).  The status is one
of `ok`, `failed`, `skipped`, `unreachable`, `changed`. -/
structure TaskResultM (V : Type) where
  task_name : String
  host : String
  status : String
  changed : Bool
  result : List (String × V)

/-- The event loop body of `_process_events` (client.py:214-263): each
recognized kind appends one `TaskResult`; every other kind falls through. -/
def processEventsStep {V : Type} (acc : List (TaskResultM V)) (e : RunEventM V) :
    List (TaskResultM V) :=
  if e.kind = "runner_on_ok" then
    acc ++ [⟨e.data.task.getD "unnamed task", e.data.host.getD "", "ok",
            e.data.changed.getD false, e.data.res.getD []⟩]
  else if e.kind = "runner_on_failed" then
    acc ++ [⟨e.data.task.getD "unnamed task", e.data.host.getD "", "failed",
            e.data.changed.getD false, e.data.res.getD []⟩]
  else if e.kind = "runner_on_skipped" then
    acc ++ [⟨e.data.task.getD "unnamed task", e.data.host.getD "", "skipped",
            false, []⟩]
  else if e.kind = "runner_on_unreachable" then
    acc ++ [⟨e.data.task.getD "unnamed task", e.data.host.getD "", "unreachable",
            false, e.data.res.getD []⟩]
  else if e.kind = "runner_on_changed" then
    acc ++ [⟨e.data.task.getD "unnamed task", e.data.host.getD "", "changed",
            true, e.data.res.getD []⟩]
  else acc

/-- `_process_events` (client.py:203-265): fold the loop body over the event
stream, starting from the empty result list. -/
def processEvents {V : Type} (evs : List (RunEventM V)) : List (TaskResultM V) :=
  evs.foldl processEventsStep []

/-- Claim-side translation table (spec section 4.3): the per-event mapping
kind to (status, changed) with the skipped payload discarded, `none` for
unrecognized kinds.  Stated from the words of the spec, to be compared with
`processEvents`. -/
def specTranslateEvent {V : Type} (e : RunEventM V) : Option (TaskResultM V) :=
  if e.kind = "runner_on_ok" then
    some ⟨e.data.task.getD "unnamed task", e.data.host.getD "", "ok",
          e.data.changed.getD false, e.data.res.getD []⟩
  else if e.kind = "runner_on_failed" then
    some ⟨e.data.task.getD "unnamed task", e.data.host.getD "", "failed",
          e.data.changed.getD false, e.data.res.getD []⟩
  else if e.kind = "runner_on_skipped" then
    some ⟨e.data.task.getD "unnamed task", e.data.host.getD "", "skipped",
          false, []⟩
  else if e.kind = "runner_on_unreachable" then
    some ⟨e.data.task.getD "unnamed task", e.data.host.getD "", "unreachable",
          false, e.data.res.getD []⟩
  else if e.kind = "runner_on_changed" then
    some ⟨e.data.task.getD "unnamed task", e.data.host.getD "", "changed",
          true, e.data.res.getD []⟩
  else none

/-! ## Ad-hoc result collapsing (`run_ad_hoc_command`, client.py:366-372) -/

/-- The kinds that contribute to the ad-hoc per-host results mapping. -/
def adHocRelevant (k : String) : Bool :=
  k = "runner_on_ok" || k = "runner_on_failed" || k = "runner_on_unreachable"

/-- Loop body of the ad-hoc result collection: `host = ...get('host')` and
then `if host:` — a missing host (`None`, embedded as `none`) and the empty
string are both falsy and are skipped; otherwise `results[host] = res`. -/
def adHocResultsStep {V : Type} (acc : List (String × List (String × V)))
    (e : RunEventM V) : List (String × List (String × V)) :=
  if adHocRelevant e.kind then
    match e.data.host with
    | some h => if h = "" then acc else ainsert acc h (e.data.res.getD [])
    | none => acc
  else acc

/-- The ad-hoc `results` mapping built by `run_ad_hoc_command`. -/
def adHocResults {V : Type} (evs : List (RunEventM V)) :
    List (String × List (String × V)) :=
  evs.foldl adHocResultsStep []

/-- Claim-side accumulator: the payload of the last event among the kinds ok,
failed, unreachable whose host field equals `h`, threaded from an initial
candidate. -/
def lastPayloadAux {V : Type} (h : String) (a : Option (List (String × V))) :
    List (RunEventM V) → Option (List (String × V))
  | [] => a
  | e :: evs =>
      lastPayloadAux h
        (if adHocRelevant e.kind && e.data.host == some h
         then some (e.data.res.getD []) else a) evs

/-- Claim-side description (spec section 4.3): the last observed result
payload among ok, failed, unreachable events for host `h`. -/
def lastRelevantPayload {V : Type} (evs : List (RunEventM V)) (h : String) :
    Option (List (String × V)) :=
  lastPayloadAux h none evs

/-! ## Ad-hoc module argument serialization (client.py:343-361)

The serializer builds the exact `key=value` argument string character by
character, so Python strings are handled as `List Char` here.  Python
`str(int)` is reproduced by an explicit decimal renderer; a float value is
carried by its literal Python rendering, since binary floating point is
outside the embedding. -/

/-- The decimal digit character for `n < 10`. -/
def digitChar (n : Nat) : Char :=
  Char.ofNat (48 + n)

/-- Decimal rendering of a natural number, as Python `str` produces it. -/
def natChars (n : Nat) : List Char :=
  if h : n < 10 then [digitChar n]
  else natChars (n / 10) ++ [digitChar (n % 10)]
  decreasing_by exact Nat.div_lt_self (Nat.lt_of_lt_of_le (by decide) (Nat.le_of_not_lt h)) (by decide)

/-- Decimal rendering of a Python int (`f-string` interpolation of an int). -/
def intChars (i : Int) : List Char :=
  if i < 0 then '-' :: natChars i.natAbs else natChars i.toNat

/-- A module argument value as dispatched by the serializer:
`isinstance(value, bool)` first, then `isinstance(value, (int, float))`, then
everything else.  A float is represented by its literal decimal rendering;
non-numeric non-boolean values by the string Python interpolates for them. -/
inductive ArgValue where
  | vBool (b : Bool)
  | vInt (i : Int)
  | vFloatLit (lit : String)
  | vString (s : String)

/-- Rendering of one argument value (client.py:346-354): booleans as
`yes`/`no`, numbers as their literal representation, everything else wrapped
in single quotes. -/
def renderValueChars : ArgValue → List Char
  | .vBool true => "yes".data
  | .vBool false => "no".data
  | .vInt i => intChars i
  | .vFloatLit lit => lit.data
  | .vString s => '\'' :: (s.data ++ ['\''])

/-- Rendering of one `key=value` entry. -/
def renderEntryChars (k : String) (v : ArgValue) : List Char :=
  k.data ++ '=' :: renderValueChars v

/-- Python `str.strip()` with no argument: drop whitespace from both ends. -/
def stripChars (l : List Char) : List Char :=
  ((l.dropWhile Char.isWhitespace).reverse.dropWhile Char.isWhitespace).reverse

/-- The raw concatenation built by the loop: each entry is appended with a
single leading space (`module_args += f" ..."`). -/
def moduleArgsRaw (args : List (String × ArgValue)) : List Char :=
  args.foldl (fun acc kv => acc ++ ' ' :: renderEntryChars kv.1 kv.2) []

/-- The final module argument string (`module_args.strip()`, client.py:360). -/
def serializeModuleArgs (args : List (String × ArgValue)) : String :=
  ⟨stripChars (moduleArgsRaw args)⟩

/-- Claim-side join: the rendered entries joined by single spaces with no
leading or trailing space. -/
def joinBySpaces : List (List Char) → List Char
  | [] => []
  | [p] => p
  | p :: ps => p ++ ' ' :: joinBySpaces ps

/-- A key is serializer-safe when it does not begin with whitespace (module
argument keys are plain identifiers). -/
def goodArgKey (k : String) : Prop :=
  ∀ c, k.data.head? = some c → c.isWhitespace = false

/-- A value is serializer-safe when its rendering cannot end in whitespace;
only the float literal carries free text at the end of its rendering. -/
def goodArgVal : ArgValue → Prop
  | .vFloatLit lit => lit.data ≠ [] ∧ ∀ c, lit.data.getLast? = some c → c.isWhitespace = false
  | _ => True

/-! ## Playbook task codec
(`_create_temp_playbook` / `create_playbook` encode via `model_dump`,
`load_playbook` decodes; client.py:126-154 and 648-683)

Task mapping values in the YAML are either scalar leaves or one nested string
map (a module argument mapping), which is exactly what the decoder
distinguishes with `isinstance(value, dict)`. -/

/-- A scalar YAML leaf occurring in a task mapping. -/
inductive Leaf where
  | ls (s : String)
  | lb (b : Bool)
  | li (i : Int)
  deriving DecidableEq

/-- A value of a task mapping: a leaf or a nested mapping of leaves. -/
inductive TaskVal where
  | leaf (l : Leaf)
  | dict (m : List (String × Leaf))
  deriving DecidableEq

/-- `models.PlaybookTask`: name, module, args, and the optional modifiers.
The `when` and `loop` fields are unions in the Python model; each is embedded
by its string form, which is all the codec paths under proof ever store. -/
structure PlaybookTaskM where
  name : String
  module : String
  args : List (String × Leaf)
  become : Option Bool
  become_user : Option String
  ignore_errors : Option Bool
  when : Option String
  register : Option String
  loop : Option String
  deriving DecidableEq

/-- `models.PlaybookPlay`, as far as the claims need it. -/
structure PlaybookPlayM where
  name : String
  hosts : List String
  tasks : List PlaybookTaskM
  become : Option Bool
  gather_facts : Option Bool

/-- `models.Playbook`. -/
structure PlaybookM where
  plays : List PlaybookPlayM

/-- `task.model_dump(exclude_none=True)` (client.py:145): the task becomes a
mapping whose keys are the literal field names of the pydantic model, in field
declaration order, with `None`-valued optional fields omitted.  Note that the
module name is stored under the key `module` and the arguments under `args`;
no key named after the module itself is produced. -/
def taskModelDump (t : PlaybookTaskM) : List (String × TaskVal) :=
  [("name", .leaf (.ls t.name)), ("module", .leaf (.ls t.module)), ("args", .dict t.args)]
  ++ (match t.become with | some b => [("become", .leaf (.lb b))] | none => [])
  ++ (match t.become_user with | some s => [("become_user", .leaf (.ls s))] | none => [])
  ++ (match t.ignore_errors with | some b => [("ignore_errors", .leaf (.lb b))] | none => [])
  ++ (match t.when with | some s => [("when", .leaf (.ls s))] | none => [])
  ++ (match t.register with | some s => [("register", .leaf (.ls s))] | none => [])
  ++ (match t.loop with | some s => [("loop", .leaf (.ls s))] | none => [])

/-- The reserved modifier keys of the task decoder (client.py:658-661). -/
def reservedTaskKeys : List String :=
  ["name", "become", "become_user", "ignore_errors", "when", "register", "loop", "loop_control"]

/-- The module detection loop of `load_playbook` (client.py:657-667): the
first key not in the reserved set is the module; a mapping value becomes the
argument mapping, any other value is wrapped as `_raw_params`. -/
def findTaskModule : List (String × TaskVal) → Option (String × List (String × Leaf))
  | [] => none
  | (k, v) :: rest =>
      if k ∈ reservedTaskKeys then findTaskModule rest
      else some (k, match v with
        | .dict m => m
        | .leaf l => [("_raw_params", l)])

/-- Helper mirroring `task_data.get(key)` for an optional string modifier. -/
def taskGetStr (td : List (String × TaskVal)) (k : String) : Option String :=
  match alookup td k with
  | some (.leaf (.ls s)) => some s
  | _ => none

/-- Helper mirroring `task_data.get(key)` for an optional boolean modifier. -/
def taskGetBool (td : List (String × TaskVal)) (k : String) : Option Bool :=
  match alookup td k with
  | some (.leaf (.lb b)) => some b
  | _ => none

/-- The per-task decoding of `load_playbook` (client.py:652-683): find the
module key, drop the task when there is none (`continue`), otherwise build a
`PlaybookTask` with `name` defaulting to `Unnamed task` and the modifiers read
back from the mapping. -/
def decodeTask (td : List (String × TaskVal)) : Option PlaybookTaskM :=
  match findTaskModule td with
  | none => none
  | some (m, args) =>
      some { name := (taskGetStr td "name").getD "Unnamed task"
             module := m
             args := args
             become := taskGetBool td "become"
             become_user := taskGetStr td "become_user"
             ignore_errors := taskGetBool td "ignore_errors"
             when := taskGetStr td "when"
             register := taskGetStr td "register"
             loop := taskGetStr td "loop" }

/-! ## Inventory codec
(encode: `_create_temp_inventory`, client.py:68-124;
decode: `load_inventory`, client.py:482-576)

Host and group variable values are opaque leaves `V`; the codec moves them
around without inspecting them. -/

/-- `models.InventoryHost`. -/
structure HostM (V : Type) where
  name : String
  hvars : List (String × V)
  groups : List String

/-- `models.InventoryGroup`. -/
structure GroupM (V : Type) where
  name : String
  gvars : List (String × V)
  children : List String

/-- `models.Inventory`. -/
structure InventoryM (V : Type) where
  hosts : List (HostM V)
  groups : List (GroupM V)

/-- One value of the `inventory_data` dictionary built by the encoder: a
group body with its `hosts`, `vars` and `children` sub-entries.  An absent
sub-key is embedded as the empty map, which is indistinguishable from a
present-but-empty one for every consumer in the source (the decoder reads the
sub-keys with `.get(key, default-empty)`). -/
structure GroupEntry (V : Type) where
  hosts : List (String × List (String × V))
  gvars : List (String × V)
  children : List String

/-- `inventory_data[group]['hosts'][host.name] = host.variables` with creation
of the group body and of the `hosts` sub-dict when absent
(client.py:86-92). -/
def addHostEntry {V : Type} :
    List (String × GroupEntry V) → String → String → List (String × V) →
    List (String × GroupEntry V)
  | [], g, hn, hv => [(g, ⟨[(hn, hv)], [], []⟩)]
  | (g', e) :: d, g, hn, hv =>
      if g' = g then (g', { e with hosts := ainsert e.hosts hn hv }) :: d
      else (g', e) :: addHostEntry d g hn hv

/-- The per-host step of the encoder (client.py:83-100): a host with declared
groups is added under each of them; a host with no groups goes under the
synthetic `ungrouped` group. -/
def stepHost {V : Type} (d : List (String × GroupEntry V)) (h : HostM V) :
    List (String × GroupEntry V) :=
  match h.groups with
  | [] => addHostEntry d "ungrouped" h.name h.hvars
  | gs => gs.foldl (fun d g => addHostEntry d g h.name h.hvars) d

/-- `children[child] = ` empty body: a key upsert that keeps an existing
child entry in place. -/
def addChildKey (cs : List String) (c : String) : List String :=
  if c ∈ cs then cs else cs ++ [c]

/-- Update the body stored under a group key, leaving the dictionary unchanged
when the key is absent. -/
def updateEntry {V : Type} :
    List (String × GroupEntry V) → String → (GroupEntry V → GroupEntry V) →
    List (String × GroupEntry V)
  | [], _, _ => []
  | (g', e) :: d, g, f =>
      if g' = g then (g', f e) :: d else (g', e) :: updateEntry d g f

/-- `if group.name not in inventory_data: inventory_data[group.name] = ` empty
body (client.py:104-105). -/
def ensureEntry {V : Type} (d : List (String × GroupEntry V)) (gname : String) :
    List (String × GroupEntry V) :=
  if (alookup d gname).isSome then d else d ++ [(gname, ⟨[], [], []⟩)]

/-- `if group.variables: inventory_data[group.name]['vars'] = group.variables`
(client.py:107-109): store the variables only when they are non-empty
(Python truthiness). -/
def setGroupVars {V : Type} (d : List (String × GroupEntry V)) (g : GroupM V) :
    List (String × GroupEntry V) :=
  if g.gvars.isEmpty then d
  else updateEntry d g.name (fun e => { e with gvars := g.gvars })

/-- `for child in group.children: ...['children'][child] = ` empty body
(client.py:111-117): upsert each child key when the child list is non-empty. -/
def setGroupChildren {V : Type} (d : List (String × GroupEntry V)) (g : GroupM V) :
    List (String × GroupEntry V) :=
  if g.children.isEmpty then d
  else updateEntry d g.name
        (fun e => { e with children := g.children.foldl addChildKey e.children })

/-- The per-group step of the encoder (client.py:103-117): create an empty
body when the group key is absent, store the variables, upsert the
children. -/
def stepGroup {V : Type} (d : List (String × GroupEntry V)) (g : GroupM V) :
    List (String × GroupEntry V) :=
  setGroupChildren (setGroupVars (ensureEntry d g.name) g) g

/-- `_create_temp_inventory` less the file write: the `inventory_data`
dictionary rendered into the temporary YAML file (client.py:80-117).  Hosts
are processed first, then groups. -/
def encodeInventory {V : Type} (inv : InventoryM V) : List (String × GroupEntry V) :=
  inv.groups.foldl stepGroup (inv.hosts.foldl stepHost [])

/-- The host entry stored for host `n` under group `g` in an encoded
inventory dictionary, when present. -/
def entryHostsLookup {V : Type} (d : List (String × GroupEntry V)) (g n : String) :
    Option (List (String × V)) :=
  match alookup d g with
  | none => none
  | some e => alookup e.hosts n

/-- One group of the engine JSON listing: its `hosts` name list, `vars` and
`children` (each read by the decoder with a default-empty `.get`). -/
structure GroupData (V : Type) where
  hostNames : List String
  gvars : List (String × V)
  children : List String

/-- The engine inventory listing, with the structural `_meta.hostvars`
section alongside the group entries. -/
structure ListingM (V : Type) where
  groups : List (String × GroupData V)
  hostvars : List (String × List (String × V))

/-- Modelled from the spec: the external automation engine's inventory
listing (`ansible-inventory --list --export`, invoked through
`ansible_runner.run_command`), which is not part of the repository sources.
Per spec sections 4.4 and 6 the listing reproduces each group of the source
file with its hosts, `vars` and `children`, and collects every host's
variables under the structural `_meta.hostvars`; `all` and `_meta` are
structural keys, kept apart from the real groups here.  The structural `all`
group and the (possibly empty, but always present) `_meta.hostvars` section
are exactly what the decoder skips and reads respectively. -/
def engineListing {V : Type} (d : List (String × GroupEntry V)) : ListingM V :=
  { groups := d.map (fun p => (p.1, ⟨akeys p.2.hosts, p.2.gvars, p.2.children⟩)),
    hostvars := d.foldl
      (fun hv p => p.2.hosts.foldl (fun hv h => ainsert hv h.1 h.2) hv) [] }

/-- The `host_groups` accumulation of `load_inventory` (client.py:533-538):
scan every group's host list in listing order and append the group name to
each listed host's membership list. -/
def hostGroupsOf {V : Type} (gs : List (String × GroupData V)) :
    List (String × List String) :=
  gs.foldl (fun hg p => p.2.hostNames.foldl (fun hg hn => apushVal hg hn p.1) hg) []

/-- `load_inventory` after the engine listing (client.py:528-564): skip the
structural keys `_meta` and `all`, rebuild the group list, and rebuild each
host from `_meta.hostvars` with its memberships looked up in `host_groups`.
The fallback branch for a listing without `_meta.hostvars` is unreachable
under the engine interface of spec section 6, which always provides the
section. -/
def decodeListing {V : Type} (L : ListingM V) : InventoryM V :=
  let entries := L.groups.filter (fun p => p.1 ≠ "_meta" && p.1 ≠ "all")
  let hg := hostGroupsOf entries
  { hosts := L.hostvars.map (fun p => ⟨p.1, p.2, (alookup hg p.1).getD []⟩),
    groups := entries.map (fun p => ⟨p.1, p.2.gvars, p.2.children⟩) }

/-- Encode an inventory to its file, have the engine list it, decode the
listing: the round trip of spec section 8. -/
def roundTripInventory {V : Type} (inv : InventoryM V) : InventoryM V :=
  decodeListing (engineListing (encodeInventory inv))

/-- The declared membership list of the host named `n`, when a unique such
host exists in the list. -/
def groupsOfHostName {V : Type} (hs : List (HostM V)) (n : String) : Option (List String) :=
  (hs.find? (fun h => h.name = n)).map HostM.groups

/-- The variable mapping of the group named `g`, when such a group exists. -/
def varsOfGroupName {V : Type} (gs : List (GroupM V)) (g : String) :
    Option (List (String × V)) :=
  (gs.find? (fun gr => gr.name = g)).map GroupM.gvars

/-! ## Execution session manager
(`ansible_client/client.py`: `_setup_ssh_keys`, `_prepare_runner_config`,
`run_playbook`, `run_ad_hoc_command`)

External effects are supplied by a `RunEnv` record: which filesystem or
engine steps raise (with which message), what the engine returns, and whether
the best-effort directory removal succeeds.  The run functions are total:
`except Exception` converts every modelled failure into a result value, which
is exactly the behaviour under proof. -/

/-- `models.SSHKeyConfig`.  The `use_system_keys` flag is part of the data
model; whether any code reads it is the subject of claim C10. -/
structure SSHKeyConfigM where
  use_system_keys : Bool
  private_key_path : Option String
  private_key_content : Option String
  key_passphrase : Option String

/-- `models.AnsibleConfig`, over opaque variable values `V`. -/
structure AnsibleConfigM (V : Type) where
  inventory_path : Option String
  inventory : Option (InventoryM V)
  playbook_path : Option String
  playbook : Option PlaybookM
  private_data_dir : Option String
  ssh_config : SSHKeyConfigM
  extra_vars : List (String × V)
  verbosity : Int
  timeout : Option Int

/-- How `_setup_ssh_keys` materialized the credential into `env/ssh_key`:
either a byte-for-byte copy of the source path, or inline content written to a
fresh file and then restricted to mode 0600 (client.py:58-66). -/
inductive SshMaterialization where
  | copied (src : String)
  | written (content : String) (mode0600 : Bool)
  deriving DecidableEq

/-- The keyword dictionary handed to `ansible_runner.run`
(client.py:184-199 and 357-361). -/
structure RunnerConfigM (V : Type) where
  private_data_dir : String
  verbosity : Int
  inventory : Option String
  playbook : Option String
  extravars : Option (List (String × V))
  timeout : Option Int
  host_pattern : Option String
  module : Option String
  module_args : Option String

/-- External behaviour of one run: which steps raise (`none` means the step
succeeds) and what the engine produces.  The removal flag models
`shutil.rmtree(..., ignore_errors=True)`: a failing removal is suppressed and
leaves the directory behind. -/
structure RunEnv (V : Type) where
  runId : String
  tmpSeedInv : String
  tmpSeedPb : String
  invWriteRaise : Option String
  pbWriteRaise : Option String
  sshCopyRaise : Option String
  sshWriteRaise : Option String
  engineRaise : Option String
  engineRc : Int
  engineEvents : List (RunEventM V)
  engineStats : List (String × List (String × Int))
  stdoutFile : String
  stderrFile : Option String
  rmtreeFails : Bool

/-- What `_prepare_runner_config` hands back (plus the side effects it
performed): the session directory name, the runner configuration, the SSH
materialization if any, and the temporary codec files if any. -/
structure PrepOut (V : Type) where
  privateDataDir : String
  runnerConfig : RunnerConfigM V
  sshMat : Option SshMaterialization
  tempInvFile : Option String
  tempPbFile : Option String

/-- The temporary inventory file path produced by `_create_temp_inventory`:
`tempfile.mkdtemp(prefix="ansible_inventory_")` plus `inventory.yml`. -/
def clientTempInvName (seed : String) : String :=
  "ansible_inventory_" ++ seed ++ "/inventory.yml"

/-- The temporary playbook file path produced by `_create_temp_playbook`. -/
def clientTempPbName (seed : String) : String :=
  "ansible_playbook_" ++ seed ++ "/playbook.yml"

/-- The inventory resolution of `_prepare_runner_config` (client.py:169-172):
a supplied path wins; otherwise a supplied value is rendered to a temporary
file (which may raise); otherwise nothing. -/
def invStepOf {V : Type} (cfg : AnsibleConfigM V) (env : RunEnv V) :
    Except String (Option String × Option String) :=
  match pyOptStr cfg.inventory_path with
  | some p => .ok (some p, none)
  | none =>
      match cfg.inventory with
      | some _ =>
          match env.invWriteRaise with
          | some msg => .error msg
          | none => .ok (some (clientTempInvName env.tmpSeedInv),
                         some (clientTempInvName env.tmpSeedInv))
      | none => .ok (none, none)

/-- The playbook resolution of `_prepare_runner_config` (client.py:174-177). -/
def pbStepOf {V : Type} (cfg : AnsibleConfigM V) (env : RunEnv V) :
    Except String (Option String × Option String) :=
  match pyOptStr cfg.playbook_path with
  | some p => .ok (some p, none)
  | none =>
      match cfg.playbook with
      | some _ =>
          match env.pbWriteRaise with
          | some msg => .error msg
          | none => .ok (some (clientTempPbName env.tmpSeedPb),
                         some (clientTempPbName env.tmpSeedPb))
      | none => .ok (none, none)

/-- The SSH credential setup of `_prepare_runner_config` (client.py:179-181,
delegating to `_setup_ssh_keys`, client.py:47-66): a copy when a key path is
provided, a mode-0600 write when inline content is provided, nothing
otherwise.  The guard is on `private_key_path or private_key_content`; no
other field of the SSH configuration is consulted. -/
def sshStepOf {V : Type} (cfg : AnsibleConfigM V) (env : RunEnv V) :
    Except String (Option SshMaterialization) :=
  match pyOptStr cfg.ssh_config.private_key_path with
  | some p =>
      match env.sshCopyRaise with
      | some msg => .error msg
      | none => .ok (some (.copied p))
  | none =>
      match pyOptStr cfg.ssh_config.private_key_content with
      | some c =>
          match env.sshWriteRaise with
          | some msg => .error msg
          | none => .ok (some (.written c true))
      | none => .ok none

/-- `_prepare_runner_config` (client.py:156-201).  The session directory
`run_<uuid>` is created on disk first (line 166-167), before any step that can
raise; the possible exceptions, in program order, are the temporary inventory
write, the temporary playbook write, and the SSH copy or write.  Conditions
follow Python truthiness: an empty-string path and a zero timeout count as
unset, `extravars` is attached only when the mapping is non-empty. -/
def prepareRunnerConfig {V : Type} (cfg : AnsibleConfigM V) (env : RunEnv V) :
    Except String (PrepOut V) :=
  let pdd := "run_" ++ env.runId
  match invStepOf cfg env with
  | .error msg => .error msg
  | .ok (invPath, tmpInv) =>
    match pbStepOf cfg env with
    | .error msg => .error msg
    | .ok (pbPath, tmpPb) =>
      match sshStepOf cfg env with
      | .error msg => .error msg
      | .ok mat =>
          .ok { privateDataDir := pdd
                runnerConfig :=
                  { private_data_dir := pdd
                    verbosity := cfg.verbosity
                    inventory := invPath
                    playbook := pbPath
                    extravars := if cfg.extra_vars.isEmpty then none else some cfg.extra_vars
                    timeout := pyOptInt cfg.timeout
                    host_pattern := none
                    module := none
                    module_args := none }
                sshMat := mat
                tempInvFile := tmpInv
                tempPbFile := tmpPb }

/-- `models.PlaybookRunResult`. -/
structure PlaybookRunResultM (V : Type) where
  success : Bool
  stats : List (String × List (String × Int))
  task_results : List (TaskResultM V)
  stdout : String
  stderr : String

/-- The result built in the `except` branch of `run_playbook`
(client.py:313-319): failure, empty stats and task list, empty stdout, the
exception message as stderr. -/
def failPlaybookResult {V : Type} (msg : String) : PlaybookRunResultM V :=
  ⟨false, [], [], "", msg⟩

/-- Outcome of one `run_playbook` call: whether the `run_<uuid>` session
directory still exists on disk afterwards, and the returned result. -/
structure RunOutcomeP (V : Type) where
  sessionDirExists : Bool
  result : PlaybookRunResultM V

/-- `run_playbook` (client.py:267-319).  The session directory is created
inside `_prepare_runner_config` before any failing step.  When `_prepare`
raises, the tuple assignment in the caller never executes, so the except
branch guard `'private_data_dir' in locals()` is false and the cleanup is
skipped: the directory survives.  On every later path the cleanup runs with
`ignore_errors=True`, so the directory survives only if the removal itself
fails. -/
def runPlaybookClient {V : Type} (cfg : AnsibleConfigM V) (env : RunEnv V) :
    RunOutcomeP V :=
  match prepareRunnerConfig cfg env with
  | .error msg => ⟨true, failPlaybookResult msg⟩
  | .ok _ =>
      match env.engineRaise with
      | some msg => ⟨env.rmtreeFails, failPlaybookResult msg⟩
      | none =>
          ⟨env.rmtreeFails,
           ⟨env.engineRc == 0, env.engineStats, processEvents env.engineEvents,
            env.stdoutFile, env.stderrFile.getD ""⟩⟩

/-- The host pattern argument of an ad-hoc request: a single pattern string
or a list of patterns. -/
inductive HostsPattern where
  | one (s : String)
  | many (l : List String)

/-- `models.AdHocCommandRequest`. -/
structure AdHocCommandRequestM (V : Type) where
  hosts : HostsPattern
  module : String
  args : List (String × ArgValue)
  config : AnsibleConfigM V

/-- `models.AdHocCommandResult`. -/
structure AdHocCommandResultM (V : Type) where
  success : Bool
  results : List (String × List (String × V))
  stdout : String
  stderr : String

/-- Outcome of one `run_ad_hoc_command` call. -/
structure RunOutcomeA (V : Type) where
  sessionDirExists : Bool
  result : AdHocCommandResultM V

/-- Host list joining (client.py:339-341): a list is joined with commas. -/
def joinHosts : HostsPattern → String
  | .one s => s
  | .many l => String.intercalate "," l

/-- `run_ad_hoc_command` (client.py:321-405): same session lifecycle as
`run_playbook`, with the playbook key dropped from the runner configuration
and `host_pattern`, `module`, `module_args` attached, and the per-host result
collapsing of client.py:366-372 instead of the task result list. -/
def runAdHocClient {V : Type} (req : AdHocCommandRequestM V) (env : RunEnv V) :
    RunOutcomeA V :=
  match prepareRunnerConfig req.config env with
  | .error msg => ⟨true, ⟨false, [], "", msg⟩⟩
  | .ok _ =>
      match env.engineRaise with
      | some msg => ⟨env.rmtreeFails, ⟨false, [], "", msg⟩⟩
      | none =>
          ⟨env.rmtreeFails,
           ⟨env.engineRc == 0, adHocResults env.engineEvents,
            env.stdoutFile, env.stderrFile.getD ""⟩⟩

/-- The runner configuration actually handed to the engine by
`run_ad_hoc_command` (client.py:334-361): the playbook key deleted, hosts
joined, the serialized module argument string attached. -/
def adHocRunnerConfig {V : Type} (req : AdHocCommandRequestM V) (env : RunEnv V) :
    Except String (RunnerConfigM V) :=
  match prepareRunnerConfig req.config env with
  | .error msg => .error msg
  | .ok prep =>
      .ok { prep.runnerConfig with
            playbook := none
            host_pattern := some (joinHosts req.hosts)
            module := some req.module
            module_args := some (serializeModuleArgs req.args) }

/-- Replace only the `use_system_keys` flag of a configuration. -/
def setUseSystemKeys {V : Type} (cfg : AnsibleConfigM V) (b : Bool) : AnsibleConfigM V :=
  { cfg with ssh_config := { cfg.ssh_config with use_system_keys := b } }

/-! ## Session directory and codec file placement (claim C3)

Paths are embedded as lists of path components.  The system temporary
directory used by `tempfile.mkdtemp` is a fixed location outside the base
data directory tree. -/

/-- The session directory of a client run: `<base>/private/run_<uuid>`
(client.py:41 and 166). -/
def clientSessionDir (base : List String) (runId : String) : List String :=
  base ++ ["private", "run_" ++ runId]

/-- The temporary inventory file of `_create_temp_inventory`
(client.py:78,120): a fresh `mkdtemp` directory under the system temporary
root, plus `inventory.yml`. -/
def clientTempInvPath (seed : String) : List String :=
  ["tmp", "ansible_inventory_" ++ seed, "inventory.yml"]

/-- The temporary playbook file of `_create_temp_playbook`
(client.py:136,150). -/
def clientTempPbPath (seed : String) : List String :=
  ["tmp", "ansible_playbook_" ++ seed, "playbook.yml"]

/-- The session directory of an MCP handler run: `<private>/run_<uuid>`
(mcp_server.py:484). -/
def mcpSessionDir (privateDir : List String) (runId : String) : List String :=
  privateDir ++ ["run_" ++ runId]

/-- The inventory file the MCP `run_playbook` handler renders from an
inventory value (mcp_server.py:531-538): `<session>/inventory/inventory.yml`. -/
def mcpInventoryFilePath (sessionDir : List String) : List String :=
  sessionDir ++ ["inventory", "inventory.yml"]

/-- The playbook file the MCP `run_playbook` handler renders from a playbook
value (mcp_server.py:556-563): `<session>/project/playbook.yml`. -/
def mcpPlaybookFilePath (sessionDir : List String) : List String :=
  sessionDir ++ ["project", "playbook.yml"]

/-- A path lies within a directory exactly when the directory is an initial
segment of it. -/
def pathWithin (dir p : List String) : Bool :=
  p.take dir.length == dir

/-! ## Concrete fixtures for counterexamples and witnesses -/

/-- A run request whose SSH credential file cannot be copied: inventory and
playbook are given by path, the key by a path whose copy raises. -/
def cfgMissingKey : AnsibleConfigM String :=
  { inventory_path := some "/data/inventory/hosts.yml"
    inventory := none
    playbook_path := some "/data/playbooks/site.yml"
    playbook := none
    private_data_dir := none
    ssh_config := ⟨true, some "/keys/missing_key.pem", none, none⟩
    extra_vars := []
    verbosity := 0
    timeout := none }

/-- The environment in which the SSH copy raises and every other external
step behaves: in particular the directory removal, had it been attempted,
would have succeeded. -/
def envMissingKey : RunEnv String :=
  { runId := "0f3a"
    tmpSeedInv := "t1"
    tmpSeedPb := "t2"
    invWriteRaise := none
    pbWriteRaise := none
    sshCopyRaise := some "No such file or directory: /keys/missing_key.pem"
    sshWriteRaise := none
    engineRaise := none
    engineRc := 0
    engineEvents := []
    engineStats := []
    stdoutFile := ""
    stderrFile := none
    rmtreeFails := false }

/-- A run request with no SSH credential, inventory and playbook by path. -/
def cfgPlain : AnsibleConfigM String :=
  { inventory_path := some "/data/inventory/hosts.yml"
    inventory := none
    playbook_path := some "/data/playbooks/site.yml"
    playbook := none
    private_data_dir := none
    ssh_config := ⟨true, none, none, none⟩
    extra_vars := []
    verbosity := 0
    timeout := none }

/-- A benign environment: no step raises, the engine exits 0. -/
def envBenign : RunEnv String :=
  { runId := "0f3a"
    tmpSeedInv := "t1"
    tmpSeedPb := "t2"
    invWriteRaise := none
    pbWriteRaise := none
    sshCopyRaise := none
    sshWriteRaise := none
    engineRaise := none
    engineRc := 0
    engineEvents := []
    engineStats := []
    stdoutFile := "ok\n"
    stderrFile := none
    rmtreeFails := false }

/-- An environment in which the engine invocation itself raises. -/
def envEngineBoom : RunEnv String :=
  { envBenign with engineRaise := some "engine exploded" }

/-- The prepared configuration for `cfgPlain` under any environment with the
seeds of `envBenign` and no raising step. -/
def prepPlainOut : PrepOut String :=
  { privateDataDir := "run_0f3a"
    runnerConfig :=
      { private_data_dir := "run_0f3a"
        verbosity := 0
        inventory := some "/data/inventory/hosts.yml"
        playbook := some "/data/playbooks/site.yml"
        extravars := none
        timeout := none
        host_pattern := none
        module := none
        module_args := none }
    sshMat := none
    tempInvFile := none
    tempPbFile := none }

/-- The task of the playbook round-trip scenario of spec section 8. -/
def taskCopyDest : PlaybookTaskM :=
  { name := "x", module := "copy", args := [("dest", .ls "/tmp/f")]
    become := none, become_user := none, ignore_errors := none
    when := none, register := none, loop := none }

/-- An inventory with a single groupless host, the round-trip counterexample
input. -/
def invGrouplessHost : InventoryM String :=
  { hosts := [⟨"db1", [], []⟩], groups := [] }

/-- A well-formed inventory exercising the amended round trip: one grouped
host with variables and one group with variables. -/
def invWebExample : InventoryM String :=
  { hosts := [⟨"web1", [("ansible_host", "10.0.0.1")], ["web"]⟩]
    groups := [⟨"web", [("http_port", "80")], []⟩] }

/-- An ad-hoc event stream with one relevant event whose host field is the
empty string. -/
def evsEmptyHost : List (RunEventM String) :=
  [⟨"runner_on_ok", ⟨some "t", some "", none, some [("msg", "boom")]⟩⟩]

/-- The ad-hoc collapsing scenario of spec section 8: two ok events for h1
followed by one failed event for h1. -/
def evsTwoOkOneFailed : List (RunEventM String) :=
  [⟨"runner_on_ok", ⟨some "t", some "h1", none, some [("rc", "0")]⟩⟩,
   ⟨"runner_on_ok", ⟨some "t", some "h1", none, some [("rc", "0"), ("msg", "again")]⟩⟩,
   ⟨"runner_on_failed", ⟨some "t", some "h1", none, some [("msg", "service down")]⟩⟩]

/-- The ad-hoc serialization scenario of spec section 8. -/
def argsServiceNginx : List (String × ArgValue) :=
  [("name", .vString "nginx"), ("state", .vString "started")]

/-! ## Dictionary lemmas -/

theorem akeys_nil {α : Type} : akeys ([] : List (String × α)) = [] := rfl

theorem akeys_cons {α : Type} (k : String) (v : α) (d : List (String × α)) :
    akeys ((k, v) :: d) = k :: akeys d := rfl

theorem akeys_append {α : Type} (d₁ d₂ : List (String × α)) :
    akeys (d₁ ++ d₂) = akeys d₁ ++ akeys d₂ := by
  simp [akeys]

theorem alookup_ainsert_self {α : Type} (d : List (String × α)) (k : String) (v : α) :
    alookup (ainsert d k v) k = some v := by
  induction d with
  | nil => simp [ainsert, alookup]
  | cons p d ih =>
      obtain ⟨k', v'⟩ := p
      by_cases h : k' = k
      · simp [ainsert, alookup, h]
      · simp [ainsert, alookup, h, ih]

theorem alookup_ainsert_ne {α : Type} (d : List (String × α)) (k q : String) (v : α)
    (h : k ≠ q) : alookup (ainsert d k v) q = alookup d q := by
  induction d with
  | nil => simp [ainsert, alookup, h]
  | cons p d ih =>
      obtain ⟨k', v'⟩ := p
      by_cases h1 : k' = k
      · subst h1
        simp [ainsert, alookup, h]
      · by_cases h2 : k' = q
        · subst h2
          simp [ainsert, alookup, h1]
        · simp [ainsert, alookup, h1, h2, ih]

theorem akeys_ainsert {α : Type} (d : List (String × α)) (k : String) (v : α) :
    akeys (ainsert d k v) = if k ∈ akeys d then akeys d else akeys d ++ [k] := by
  induction d with
  | nil => simp [ainsert, akeys_nil, akeys_cons]
  | cons p d ih =>
      obtain ⟨k', v'⟩ := p
      by_cases h : k' = k
      · subst h
        simp [ainsert, akeys_cons]
      · have hne : k ≠ k' := fun hh => h hh.symm
        simp only [ainsert, h, if_false, akeys_cons, ih]
        by_cases hmem : k ∈ akeys d
        · simp [akeys_cons, hmem]
        · simp [akeys_cons, hmem, hne]

theorem mem_akeys_ainsert {α : Type} (d : List (String × α)) (k q : String) (v : α) :
    q ∈ akeys (ainsert d k v) ↔ q = k ∨ q ∈ akeys d := by
  rw [akeys_ainsert]
  by_cases h : k ∈ akeys d
  · rw [if_pos h]
    constructor
    · exact fun hq => Or.inr hq
    · rintro (rfl | hq)
      · exact h
      · exact hq
  · rw [if_neg h]
    simp [or_comm]

theorem alookup_eq_none_of_not_mem_akeys {α : Type} (d : List (String × α)) (q : String)
    (h : q ∉ akeys d) : alookup d q = none := by
  induction d with
  | nil => rfl
  | cons p d ih =>
      obtain ⟨k', v'⟩ := p
      rw [akeys_cons, List.mem_cons] at h
      push_neg at h
      have h1 : k' ≠ q := fun hh => h.1 hh.symm
      simp [alookup, h1, ih h.2]

theorem alookup_isSome_iff_mem_akeys {α : Type} (d : List (String × α)) (q : String) :
    (alookup d q).isSome ↔ q ∈ akeys d := by
  induction d with
  | nil => simp [alookup, akeys_nil]
  | cons p d ih =>
      obtain ⟨k', v'⟩ := p
      rw [akeys_cons, List.mem_cons]
      by_cases h : k' = q
      · simp [alookup, h]
      · have h2 : q ≠ k' := fun hh => h hh.symm
        simp [alookup, h, h2, ih]

theorem alookup_append_left {α : Type} (d₁ d₂ : List (String × α)) (q : String)
    (h : q ∈ akeys d₁) : alookup (d₁ ++ d₂) q = alookup d₁ q := by
  induction d₁ with
  | nil => rw [akeys_nil] at h; exact absurd h (List.not_mem_nil q)
  | cons p d ih =>
      obtain ⟨k', v'⟩ := p
      by_cases hk : k' = q
      · simp [alookup, hk]
      · rw [akeys_cons, List.mem_cons] at h
        rcases h with h | h
        · exact absurd h.symm hk
        · simp [alookup, hk, ih h]

theorem alookup_append_right {α : Type} (d₁ d₂ : List (String × α)) (q : String)
    (h : q ∉ akeys d₁) : alookup (d₁ ++ d₂) q = alookup d₂ q := by
  induction d₁ with
  | nil => simp
  | cons p d ih =>
      obtain ⟨k', v'⟩ := p
      rw [akeys_cons, List.mem_cons] at h
      push_neg at h
      have h1 : k' ≠ q := fun hh => h.1 hh.symm
      simp [alookup, h1, ih h.2]

/-! ## Claim C4: tool registration under an existing name -/

/-- Claim C4, counterexample.  Registering a second handler under an already
registered name does not fail: it silently replaces the first handler, so the
claimed `DuplicateToolError` behaviour does not hold.  `FastMCP.tool` ends in
a plain dictionary assignment with no presence check (fastmcp.py:103). -/
theorem toolRegister_silently_replaces :
    toolLookup (toolRegister (toolRegister [] "run_playbook" ⟨0, "first"⟩)
        "run_playbook" ⟨1, "second"⟩) "run_playbook" = some ⟨1, "second"⟩ ∧
    toolLookup (toolRegister [] "run_playbook" ⟨0, "first"⟩) "run_playbook"
      = some ⟨0, "first"⟩ ∧
    (⟨1, "second"⟩ : ToolInfo) ≠ ⟨0, "first"⟩ := by
  refine ⟨rfl, rfl, by decide⟩

/-- Claim C4, amended: registration never fails; registering a name that is
already present replaces the stored handler (last registration wins) and
leaves every other name untouched. -/
theorem toolRegister_replaces_existing (t : ToolRegistry) (n : String) (i : ToolInfo) :
    toolLookup (toolRegister t n i) n = some i ∧
    ∀ m, m ≠ n → toolLookup (toolRegister t n i) m = toolLookup t m := by
  refine ⟨alookup_ainsert_self t n i, fun m hm => ?_⟩
  exact alookup_ainsert_ne t n m i (fun h => hm h.symm)

/-- Claim C4, witness for the amended statement at a concrete registry. -/
theorem toolRegister_replaces_existing_witness :
    toolLookup (toolRegister [("load_inventory", ⟨7, "doc"⟩)] "load_inventory" ⟨8, "doc2"⟩)
      "load_inventory" = some ⟨8, "doc2"⟩ ∧
    ("run_playbook" ≠ "load_inventory" ∧
     toolLookup (toolRegister [("load_inventory", ⟨7, "doc"⟩)] "load_inventory" ⟨8, "doc2"⟩)
       "run_playbook" = toolLookup [("load_inventory", ⟨7, "doc"⟩)] "run_playbook") := by
  refine ⟨(toolRegister_replaces_existing [("load_inventory", ⟨7, "doc"⟩)]
            "load_inventory" ⟨8, "doc2"⟩).1,
          by decide,
          (toolRegister_replaces_existing [("load_inventory", ⟨7, "doc"⟩)]
            "load_inventory" ⟨8, "doc2"⟩).2 "run_playbook" (by decide)⟩

/-! ## Claim C8: playbook event stream translation -/

theorem processEventsStep_eq {V : Type} (acc : List (TaskResultM V)) (e : RunEventM V) :
    processEventsStep acc e = acc ++ (specTranslateEvent e).toList := by
  unfold processEventsStep specTranslateEvent
  split_ifs <;> simp

theorem processEvents_foldl_eq {V : Type} (evs : List (RunEventM V))
    (acc : List (TaskResultM V)) :
    evs.foldl processEventsStep acc = acc ++ evs.filterMap specTranslateEvent := by
  induction evs generalizing acc with
  | nil => simp
  | cons e evs ih =>
      simp only [List.foldl_cons, ih, processEventsStep_eq]
      cases h : specTranslateEvent e <;> simp [List.filterMap_cons, h]

/-- Claim C8: `_process_events` appends exactly one `TaskResult` per event of
a recognized kind, in stream order with duplicates preserved, translated per
the kind table (changed from the payload with default false for ok and
failed, forced true for changed, forced false for skipped and unreachable,
the skipped payload discarded), and silently ignores every other kind. -/
theorem processEvents_eq_filterMap {V : Type} (evs : List (RunEventM V)) :
    processEvents evs = evs.filterMap specTranslateEvent := by
  simpa using processEvents_foldl_eq evs []

/-! ## Claim C6: ad-hoc per-host result collapsing -/

theorem alookup_adHocResultsStep {V : Type} (acc : List (String × List (String × V)))
    (e : RunEventM V) (h : String) (hne : h ≠ "") :
    alookup (adHocResultsStep acc e) h =
      if adHocRelevant e.kind && e.data.host == some h
      then some (e.data.res.getD []) else alookup acc h := by
  unfold adHocResultsStep
  have hne2 : ("" : String) ≠ h := Ne.symm hne
  by_cases hrel : adHocRelevant e.kind
  · cases hhost : e.data.host with
    | none => simp [hrel, hhost]
    | some h' =>
        by_cases hemp : h' = ""
        · subst hemp
          simp [hrel, hhost, hne2]
        · by_cases heq : h' = h
          · subst heq
            simp [hrel, hhost, hemp, alookup_ainsert_self]
          · simp [hrel, hhost, hemp, heq, alookup_ainsert_ne acc h' h _ heq]
  · simp [hrel]

theorem alookup_adHocResults_foldl {V : Type} (evs : List (RunEventM V))
    (acc : List (String × List (String × V))) (h : String) (hne : h ≠ "") :
    alookup (evs.foldl adHocResultsStep acc) h = lastPayloadAux h (alookup acc h) evs := by
  induction evs generalizing acc with
  | nil => rfl
  | cons e evs ih =>
      simp only [List.foldl_cons, lastPayloadAux, ih (adHocResultsStep acc e)]
      rw [alookup_adHocResultsStep acc e h hne]

/-- Claim C6, amended: for every ad-hoc event stream and every host with a
non-empty name, the results mapping stores exactly the payload of the last
event of kind ok, failed or unreachable for that host (later events
overwrite earlier ones, other kinds never contribute).  An event whose host
field is missing or empty is skipped by the `if host:` truthiness guard
(client.py:371) and contributes nothing. -/
theorem adHocResults_last_write_wins {V : Type} (evs : List (RunEventM V))
    (h : String) (hne : h ≠ "") :
    alookup (adHocResults evs) h = lastRelevantPayload evs h := by
  simpa [adHocResults, lastRelevantPayload] using
    alookup_adHocResults_foldl evs [] h hne

/-- Claim C6, counterexample.  A relevant event carrying the empty-string
host is dropped by the `if host:` guard, so the results mapping does not map
that host to its last observed payload as the claim states for every host. -/
theorem adHocResults_drops_empty_host :
    alookup (adHocResults evsEmptyHost) "" = none ∧
    lastRelevantPayload evsEmptyHost "" = some [("msg", "boom")] := by
  refine ⟨rfl, rfl⟩

/-- Claim C6, witness: the collapsing scenario of spec section 8 — two ok
events for h1 followed by one failed event leave exactly the failed payload. -/
theorem adHocResults_last_write_wins_witness :
    ("h1" ≠ "" ∧
     alookup (adHocResults evsTwoOkOneFailed) "h1" =
       lastRelevantPayload evsTwoOkOneFailed "h1") ∧
    lastRelevantPayload evsTwoOkOneFailed "h1" = some [("msg", "service down")] := by
  refine ⟨⟨by decide, adHocResults_last_write_wins evsTwoOkOneFailed "h1" (by decide)⟩, rfl⟩

/-! ## Claim C9: failures are captured, never propagated -/

/-- Claim C9: `run_playbook` and `run_ad_hoc_command` are total on the
modelled failure space — the `except Exception` handler converts every
configuration failure (missing source path, unreadable credential file,
temporary file write failure) and every engine invocation exception into a
returned result with `success = false`, the error message as stderr, and
empty stats, results, task list and stdout. -/
theorem runClientFailureResult {V : Type} :
    (∀ (cfg : AnsibleConfigM V) (env : RunEnv V) (msg : String),
        prepareRunnerConfig cfg env = .error msg →
        (runPlaybookClient cfg env).result = failPlaybookResult msg) ∧
    (∀ (cfg : AnsibleConfigM V) (env : RunEnv V) (p : PrepOut V) (msg : String),
        prepareRunnerConfig cfg env = .ok p → env.engineRaise = some msg →
        (runPlaybookClient cfg env).result = failPlaybookResult msg) ∧
    (∀ (req : AdHocCommandRequestM V) (env : RunEnv V) (msg : String),
        prepareRunnerConfig req.config env = .error msg →
        (runAdHocClient req env).result = ⟨false, [], "", msg⟩) ∧
    (∀ (req : AdHocCommandRequestM V) (env : RunEnv V) (p : PrepOut V) (msg : String),
        prepareRunnerConfig req.config env = .ok p → env.engineRaise = some msg →
        (runAdHocClient req env).result = ⟨false, [], "", msg⟩) := by
  refine ⟨?_, ?_, ?_, ?_⟩
  · intro cfg env msg h
    simp [runPlaybookClient, h]
  · intro cfg env p msg h1 h2
    simp [runPlaybookClient, h1, h2]
  · intro req env msg h
    simp [runAdHocClient, h]
  · intro req env p msg h1 h2
    simp [runAdHocClient, h1, h2]

/-- Claim C9, witness: a failing SSH copy and a raising engine invocation
both come back as failure results with the message as stderr. -/
theorem runClientFailureResult_witness :
    (prepareRunnerConfig cfgMissingKey envMissingKey =
       .error "No such file or directory: /keys/missing_key.pem" ∧
     (runPlaybookClient cfgMissingKey envMissingKey).result =
       failPlaybookResult "No such file or directory: /keys/missing_key.pem") ∧
    (prepareRunnerConfig cfgPlain envEngineBoom = .ok prepPlainOut ∧
     envEngineBoom.engineRaise = some "engine exploded" ∧
     (runPlaybookClient cfgPlain envEngineBoom).result =
       failPlaybookResult "engine exploded") := by
  refine ⟨⟨rfl, runClientFailureResult.1 cfgMissingKey envMissingKey _ rfl⟩,
          ⟨rfl, rfl, runClientFailureResult.2.1 cfgPlain envEngineBoom prepPlainOut _ rfl rfl⟩⟩

/-! ## Claim C10: the `use_system_keys` flag is dead -/

/-- Claim C10: no operation reads `use_system_keys` — two configurations
that differ only in that flag produce identical prepared configurations and
identical run outcomes; and SSH key material is set up exactly when a key
path or inline key content is provided (non-empty, per Python truthiness of
the `private_key_path or private_key_content` guard). -/
theorem useSystemKeysNoEffect {V : Type} :
    (∀ (cfg : AnsibleConfigM V) (env : RunEnv V) (b : Bool),
        prepareRunnerConfig (setUseSystemKeys cfg b) env = prepareRunnerConfig cfg env) ∧
    (∀ (cfg : AnsibleConfigM V) (env : RunEnv V) (b : Bool),
        runPlaybookClient (setUseSystemKeys cfg b) env = runPlaybookClient cfg env) ∧
    (∀ (req : AdHocCommandRequestM V) (env : RunEnv V) (b : Bool),
        runAdHocClient { req with config := setUseSystemKeys req.config b } env
          = runAdHocClient req env) ∧
    (∀ (cfg : AnsibleConfigM V) (env : RunEnv V) (mat : Option SshMaterialization),
        sshStepOf cfg env = .ok mat →
        (mat.isSome ↔ ((pyOptStr cfg.ssh_config.private_key_path).isSome ∨
                       (pyOptStr cfg.ssh_config.private_key_content).isSome))) := by
  refine ⟨fun cfg env b => rfl, fun cfg env b => rfl, fun req env b => rfl, ?_⟩
  intro cfg env mat h
  unfold sshStepOf at h
  cases hp : pyOptStr cfg.ssh_config.private_key_path with
  | some p =>
      rw [hp] at h
      cases hc : env.sshCopyRaise with
      | some msg => rw [hc] at h; exact absurd h (by simp)
      | none =>
          rw [hc] at h
          simp at h
          simp [← h, hp]
  | none =>
      rw [hp] at h
      cases hco : pyOptStr cfg.ssh_config.private_key_content with
      | some c =>
          rw [hco] at h
          cases hw : env.sshWriteRaise with
          | some msg => rw [hw] at h; exact absurd h (by simp)
          | none =>
              rw [hw] at h
              simp at h
              simp [← h, hp, hco]
      | none =>
          rw [hco] at h
          simp at h
          simp [← h, hp, hco]

/-- Claim C10, witness: flipping the flag on a concrete request changes
nothing, and the concrete credential-free configuration sets up no key. -/
theorem useSystemKeysNoEffect_witness :
    (prepareRunnerConfig (setUseSystemKeys cfgPlain false) envBenign
       = prepareRunnerConfig cfgPlain envBenign ∧
     runPlaybookClient (setUseSystemKeys cfgPlain false) envBenign
       = runPlaybookClient cfgPlain envBenign) ∧
    (sshStepOf cfgPlain envBenign = .ok none ∧
     ((none : Option SshMaterialization).isSome ↔
       ((pyOptStr cfgPlain.ssh_config.private_key_path).isSome ∨
        (pyOptStr cfgPlain.ssh_config.private_key_content).isSome))) := by
  refine ⟨⟨useSystemKeysNoEffect.1 cfgPlain envBenign false,
           useSystemKeysNoEffect.2.1 cfgPlain envBenign false⟩,
          ⟨rfl, useSystemKeysNoEffect.2.2.2 cfgPlain envBenign none rfl⟩⟩

/-! ## Claim C1: the session directory after a run -/

/-- Claim C1: evaluation of the code at the failing input.  When the SSH
credential copy raises inside `_prepare_runner_config`, the caller's
`private_data_dir` name is never bound, the `except` branch guard
`'private_data_dir' in locals()` (client.py:310) is false, and the
`run_<uuid>` directory created at client.py:166-167 survives the call even
though the removal itself would have succeeded — against the claimed
unconditional cleanup.  On a benign run the directory is removed. -/
theorem sessionDirSurvivesPrepareException :
    (runPlaybookClient cfgMissingKey envMissingKey).sessionDirExists = true ∧
    (runPlaybookClient cfgMissingKey envMissingKey).result.success = false ∧
    envMissingKey.rmtreeFails = false ∧
    (runPlaybookClient cfgPlain envBenign).sessionDirExists = false := by
  exact ⟨rfl, rfl, rfl, rfl⟩

/-! ## Claim C2: playbook task encode and decode -/

/-- Claim C2: evaluation of the codec at the round-trip task.  Encoding via
`model_dump` produces the literal keys `name`, `module`, `args` — there is no
key `copy` mapping to the argument mapping — and decoding that mapping back
through `load_playbook` picks `module` as the first non-reserved key, so the
recovered task has `module == "module"` and
`args == ("_raw_params" : "copy")`, not the claimed `module == "copy"` with
`args == (dest : "/tmp/f")`. -/
theorem taskRoundTripBroken :
    alookup (taskModelDump taskCopyDest) "copy" = none ∧
    alookup (taskModelDump taskCopyDest) "module" = some (.leaf (.ls "copy")) ∧
    (decodeTask (taskModelDump taskCopyDest)).map PlaybookTaskM.module = some "module" ∧
    (decodeTask (taskModelDump taskCopyDest)).map PlaybookTaskM.args
      = some [("_raw_params", Leaf.ls "copy")] := by
  exact ⟨rfl, rfl, rfl, rfl⟩

/-! ## Claim C3: placement of codec-rendered files -/

/-- Claim C3, counterexample: the inventory file rendered by the client's
`_create_temp_inventory` for a concrete run lives in a fresh system temporary
directory, not inside the session directory of that run. -/
theorem clientTempInventoryOutsideSession :
    pathWithin (clientSessionDir ["ansible_data"] "0f3a") (clientTempInvPath "t1") = false := by
  decide

theorem pathWithin_clientTemp_aux (base : List String) (runId d2 d3 : String)
    (hd : d2 ≠ "private") :
    pathWithin (clientSessionDir base runId) ["tmp", d2, d3] = false := by
  simp only [pathWithin, beq_eq_false_iff_ne, ne_eq]
  intro h
  have hlen : (clientSessionDir base runId).length ≤ 3 := by
    have := congrArg List.length h
    simp [List.length_take] at this
    omega
  have hb : base.length ≤ 1 := by
    simp [clientSessionDir] at hlen
    omega
  match base, hb with
  | [], _ => simp [clientSessionDir, List.take] at h
  | [b], _ =>
      simp [clientSessionDir, List.take] at h
      exact hd h.2.1

/-- Claim C3, amended: the MCP server handlers render a value-supplied
inventory or playbook inside the session directory (owned and removed with
it), but `AnsibleClient._create_temp_inventory` and `_create_temp_playbook`
render into a fresh `mkdtemp` directory under the system temporary root,
which is outside every session directory. -/
theorem codecFilePlacement :
    (∀ (privateDir : List String) (runId : String),
        pathWithin (mcpSessionDir privateDir runId)
          (mcpInventoryFilePath (mcpSessionDir privateDir runId)) = true ∧
        pathWithin (mcpSessionDir privateDir runId)
          (mcpPlaybookFilePath (mcpSessionDir privateDir runId)) = true) ∧
    (∀ (base : List String) (runId seed : String),
        pathWithin (clientSessionDir base runId) (clientTempInvPath seed) = false ∧
        pathWithin (clientSessionDir base runId) (clientTempPbPath seed) = false) := by
  constructor
  · intro privateDir runId
    constructor <;>
      simp [pathWithin, mcpInventoryFilePath, mcpPlaybookFilePath, List.take_left]
  · intro base runId seed
    constructor
    · refine pathWithin_clientTemp_aux base runId _ _ ?_
      intro hcontra
      have := congrArg String.length hcontra
      rw [String.length_append] at this
      rw [show ("ansible_inventory_").length = 18 from rfl,
          show ("private").length = 7 from rfl] at this
      omega
    · refine pathWithin_clientTemp_aux base runId _ _ ?_
      intro hcontra
      have := congrArg String.length hcontra
      rw [String.length_append] at this
      rw [show ("ansible_playbook_").length = 17 from rfl,
          show ("private").length = 7 from rfl] at this
      omega

/-! ## Claim C7: ad-hoc module argument serialization -/

theorem digitChar_not_ws : ∀ d, d < 10 → (digitChar d).isWhitespace = false := by
  decide

theorem natChars_ne_nil (n : Nat) : natChars n ≠ [] := by
  rw [natChars]
  split <;> simp

theorem natChars_not_ws (n : Nat) : ∀ c ∈ natChars n, c.isWhitespace = false := by
  induction n using Nat.strong_induction_on with
  | _ n ih =>
      rw [natChars]
      split
      · next h =>
          intro c hc
          simp at hc
          subst hc
          exact digitChar_not_ws n h
      · next h =>
          intro c hc
          rcases List.mem_append.mp hc with hl | hr
          · exact ih (n / 10)
              (Nat.div_lt_self (Nat.lt_of_lt_of_le (by decide) (Nat.le_of_not_lt h))
                (by decide)) c hl
          · simp at hr
            subst hr
            exact digitChar_not_ws (n % 10) (Nat.mod_lt n (by decide))

theorem getLast?_cons_of_ne_nil {α : Type} (a : α) (l : List α) (h : l ≠ []) :
    (a :: l).getLast? = l.getLast? := by
  cases l with
  | nil => exact absurd rfl h
  | cons b m => simp

theorem renderValueChars_ne_nil (v : ArgValue) (hv : goodArgVal v) :
    renderValueChars v ≠ [] := by
  cases v with
  | vBool b => cases b <;> simp [renderValueChars]
  | vInt i =>
      simp only [renderValueChars, intChars]
      split
      · simp
      · exact natChars_ne_nil _
  | vFloatLit lit => exact hv.1
  | vString s => simp [renderValueChars]

theorem renderValueChars_getLast_not_ws (v : ArgValue) (hv : goodArgVal v) :
    ∀ c, (renderValueChars v).getLast? = some c → c.isWhitespace = false := by
  cases v with
  | vBool b =>
      cases b <;> (intro c hc; simp [renderValueChars] at hc; subst hc; decide)
  | vInt i =>
      intro c hc
      simp only [renderValueChars, intChars] at hc
      by_cases hneg : i < 0
      · rw [if_pos hneg, getLast?_cons_of_ne_nil _ _ (natChars_ne_nil _)] at hc
        exact natChars_not_ws _ c (List.mem_of_getLast?_eq_some hc)
      · rw [if_neg hneg] at hc
        exact natChars_not_ws _ c (List.mem_of_getLast?_eq_some hc)
  | vFloatLit lit =>
      exact hv.2
  | vString s =>
      intro c hc
      rw [show renderValueChars (.vString s) = '\'' :: (s.data ++ ['\'']) from rfl,
          getLast?_cons_of_ne_nil _ _ (by simp), List.getLast?_concat] at hc
      cases hc
      decide

theorem renderEntryChars_ne_nil (k : String) (v : ArgValue) :
    renderEntryChars k v ≠ [] := by
  simp [renderEntryChars]

theorem renderEntryChars_head_not_ws (k : String) (v : ArgValue) (hk : goodArgKey k) :
    ∀ c, (renderEntryChars k v).head? = some c → c.isWhitespace = false := by
  intro c hc
  rw [renderEntryChars, List.head?_append] at hc
  cases hd : k.data.head? with
  | none =>
      rw [hd] at hc
      simp at hc
      subst hc
      decide
  | some c0 =>
      rw [hd] at hc
      simp at hc
      subst hc
      exact hk c0 hd

theorem renderEntryChars_getLast_not_ws (k : String) (v : ArgValue) (hv : goodArgVal v) :
    ∀ c, (renderEntryChars k v).getLast? = some c → c.isWhitespace = false := by
  intro c hc
  rw [renderEntryChars, List.getLast?_append,
      getLast?_cons_of_ne_nil _ _ (renderValueChars_ne_nil v hv)] at hc
  cases hlast : (renderValueChars v).getLast? with
  | none => exact absurd hlast (by
      intro hn
      exact renderValueChars_ne_nil v hv (List.getLast?_eq_none_iff.mp hn))
  | some c0 =>
      rw [hlast] at hc
      simp at hc
      subst hc
      exact renderValueChars_getLast_not_ws v hv c0 hlast

theorem dropWhile_eq_self_of_head_not_ws (l : List Char)
    (h : ∀ c, l.head? = some c → c.isWhitespace = false) :
    l.dropWhile Char.isWhitespace = l := by
  cases l with
  | nil => rfl
  | cons a m =>
      rw [List.dropWhile_cons, if_neg]
      simp [h a rfl]

theorem stripChars_eq_self (l : List Char)
    (hh : ∀ c, l.head? = some c → c.isWhitespace = false)
    (hl : ∀ c, l.getLast? = some c → c.isWhitespace = false) :
    stripChars l = l := by
  rw [stripChars, dropWhile_eq_self_of_head_not_ws l hh,
      dropWhile_eq_self_of_head_not_ws l.reverse (by
        intro c hc
        rw [List.head?_reverse] at hc
        exact hl c hc),
      List.reverse_reverse]

theorem stripChars_cons_space (l : List Char)
    (hh : ∀ c, l.head? = some c → c.isWhitespace = false)
    (hl : ∀ c, l.getLast? = some c → c.isWhitespace = false) :
    stripChars (' ' :: l) = l := by
  rw [stripChars, List.dropWhile_cons, if_pos (by decide)]
  rw [show ((l.dropWhile Char.isWhitespace).reverse.dropWhile Char.isWhitespace).reverse
        = stripChars l from rfl]
  exact stripChars_eq_self l hh hl

theorem moduleArgsRaw_eq_join (args : List (String × ArgValue)) :
    moduleArgsRaw args
      = (args.map (fun kv => ' ' :: renderEntryChars kv.1 kv.2)).flatten := by
  suffices hgen : ∀ (l : List (String × ArgValue)) (acc : List Char),
      l.foldl (fun a kv => a ++ ' ' :: renderEntryChars kv.1 kv.2) acc
        = acc ++ (l.map (fun kv => ' ' :: renderEntryChars kv.1 kv.2)).flatten by
    simpa [moduleArgsRaw] using hgen args []
  intro l
  induction l with
  | nil => simp
  | cons kv rest ih =>
      intro acc
      simp [ih, List.flatten_cons]

theorem join_spaced_eq_joinBySpaces {α : Type} (f : α → List Char) (p : List Char)
    (l : List α) :
    p ++ (l.map (fun x => ' ' :: f x)).flatten = joinBySpaces (p :: l.map f) := by
  induction l generalizing p with
  | nil => simp [joinBySpaces]
  | cons x l ih =>
      rw [show joinBySpaces (p :: (x :: l).map f)
            = p ++ ' ' :: joinBySpaces (f x :: l.map f) from rfl]
      simp only [List.map_cons, List.flatten_cons, ← ih (f x)]
      simp

theorem joinBySpaces_ne_nil (p : List Char) (ps : List (List Char)) (hp : p ≠ []) :
    joinBySpaces (p :: ps) ≠ [] := by
  cases ps with
  | nil => exact hp
  | cons q ps => simp [joinBySpaces, hp]

theorem joinBySpaces_head_not_ws (ps : List (List Char))
    (h : ∀ p ∈ ps, p ≠ [] ∧ ∀ c, p.head? = some c → c.isWhitespace = false) :
    ∀ c, (joinBySpaces ps).head? = some c → c.isWhitespace = false := by
  cases ps with
  | nil => intro c hc; exact absurd hc (by simp [joinBySpaces])
  | cons p ps =>
      intro c hc
      have hp := h p (List.mem_cons_self p ps)
      cases ps with
      | nil => exact hp.2 c hc
      | cons q ps =>
          rw [show joinBySpaces (p :: q :: ps) = p ++ ' ' :: joinBySpaces (q :: ps)
                from rfl, List.head?_append] at hc
          cases hd : p.head? with
          | none => exact absurd (List.head?_eq_none_iff.mp hd) hp.1
          | some c0 =>
              rw [hd] at hc
              simp at hc
              subst hc
              exact hp.2 c0 hd

theorem joinBySpaces_getLast_not_ws (ps : List (List Char))
    (h : ∀ p ∈ ps, p ≠ [] ∧ ∀ c, p.getLast? = some c → c.isWhitespace = false) :
    ∀ c, (joinBySpaces ps).getLast? = some c → c.isWhitespace = false := by
  induction ps with
  | nil => intro c hc; exact absurd hc (by simp [joinBySpaces])
  | cons p ps ih =>
      intro c hc
      have hp := h p (List.mem_cons_self p ps)
      cases ps with
      | nil => exact hp.2 c hc
      | cons q ps =>
          have hq := h q (List.mem_cons_of_mem p (List.mem_cons_self q ps))
          rw [show joinBySpaces (p :: q :: ps) = p ++ ' ' :: joinBySpaces (q :: ps)
                from rfl, List.getLast?_append,
              getLast?_cons_of_ne_nil _ _ (joinBySpaces_ne_nil q ps hq.1)] at hc
          cases hlast : (joinBySpaces (q :: ps)).getLast? with
          | none => exact absurd (List.getLast?_eq_none_iff.mp hlast)
                      (joinBySpaces_ne_nil q ps hq.1)
          | some c0 =>
              rw [hlast] at hc
              simp at hc
              subst hc
              exact ih (fun r hr => h r (List.mem_cons_of_mem p hr)) c0 hlast

/-- Claim C7: the serialized ad-hoc module argument string is exactly the
rendered `key=value` entries joined by single spaces, with boolean values as
`yes`/`no`, numeric values as their literal representation, every other value
wrapped in single quotes, and no leading or trailing space — for every
argument mapping whose keys do not begin with whitespace and whose float
literals are non-empty and do not end in whitespace. -/
theorem serializeModuleArgs_spec (args : List (String × ArgValue))
    (hk : ∀ kv ∈ args, goodArgKey kv.1) (hv : ∀ kv ∈ args, goodArgVal kv.2) :
    serializeModuleArgs args
      = ⟨joinBySpaces (args.map (fun kv => renderEntryChars kv.1 kv.2))⟩ ∧
    (∀ c, (serializeModuleArgs args).data.head? = some c → c.isWhitespace = false) ∧
    (∀ c, (serializeModuleArgs args).data.getLast? = some c → c.isWhitespace = false) := by
  have hprops : ∀ p ∈ args.map (fun kv => renderEntryChars kv.1 kv.2),
      p ≠ [] ∧ (∀ c, p.head? = some c → c.isWhitespace = false) ∧
      (∀ c, p.getLast? = some c → c.isWhitespace = false) := by
    intro p hp
    rcases List.mem_map.mp hp with ⟨kv, hkv, rfl⟩
    exact ⟨renderEntryChars_ne_nil kv.1 kv.2,
           renderEntryChars_head_not_ws kv.1 kv.2 (hk kv hkv),
           renderEntryChars_getLast_not_ws kv.1 kv.2 (hv kv hkv)⟩
  have hdata : serializeModuleArgs args
      = ⟨joinBySpaces (args.map (fun kv => renderEntryChars kv.1 kv.2))⟩ := by
    cases args with
    | nil => rfl
    | cons kv rest =>
        rw [serializeModuleArgs, moduleArgsRaw_eq_join, List.map_cons, List.flatten_cons,
            show (' ' :: renderEntryChars kv.1 kv.2)
                ++ ((rest.map (fun kv => ' ' :: renderEntryChars kv.1 kv.2)).flatten)
              = ' ' :: (renderEntryChars kv.1 kv.2
                ++ ((rest.map (fun kv => ' ' :: renderEntryChars kv.1 kv.2)).flatten))
              from rfl,
            join_spaced_eq_joinBySpaces (fun kv => renderEntryChars kv.1 kv.2)
              (renderEntryChars kv.1 kv.2) rest]
        rw [show (kv :: rest).map (fun kv => renderEntryChars kv.1 kv.2)
              = renderEntryChars kv.1 kv.2 :: rest.map (fun kv => renderEntryChars kv.1 kv.2)
              from rfl] at hprops ⊢
        rw [stripChars_cons_space _
              (joinBySpaces_head_not_ws _ (fun p hp => ⟨(hprops p hp).1, (hprops p hp).2.1⟩))
              (joinBySpaces_getLast_not_ws _ (fun p hp => ⟨(hprops p hp).1, (hprops p hp).2.2⟩))]
  refine ⟨hdata, ?_, ?_⟩
  · rw [hdata]
    exact joinBySpaces_head_not_ws _ (fun p hp => ⟨(hprops p hp).1, (hprops p hp).2.1⟩)
  · rw [hdata]
    exact joinBySpaces_getLast_not_ws _ (fun p hp => ⟨(hprops p hp).1, (hprops p hp).2.2⟩)

/-- Claim C7, witness: the spec section 8 example serializes to
`name='nginx' state='started'`, which is the space-join of its two rendered
entries with no leading or trailing space. -/
theorem serializeModuleArgs_spec_witness :
    ((∀ kv ∈ argsServiceNginx, goodArgKey kv.1) ∧
     (∀ kv ∈ argsServiceNginx, goodArgVal kv.2) ∧
     serializeModuleArgs argsServiceNginx
       = ⟨joinBySpaces (argsServiceNginx.map (fun kv => renderEntryChars kv.1 kv.2))⟩) ∧
    serializeModuleArgs argsServiceNginx = "name='nginx' state='started'" := by
  have hk : ∀ kv ∈ argsServiceNginx, goodArgKey kv.1 := by
    intro kv hkv
    simp [argsServiceNginx] at hkv
    rcases hkv with rfl | rfl <;> (intro c hc; cases hc; decide)
  have hv : ∀ kv ∈ argsServiceNginx, goodArgVal kv.2 := by
    intro kv hkv
    simp [argsServiceNginx] at hkv
    rcases hkv with rfl | rfl <;> trivial
  exact ⟨⟨hk, hv, (serializeModuleArgs_spec argsServiceNginx hk hv).1⟩, rfl⟩

/-! ## Claim C5: inventory round trip

The decoder skip list (`_meta`, `all`) does not contain `ungrouped`, so a
host with no declared groups comes back as a member of the synthetic
`ungrouped` group: the counterexample below.  The amended round trip is then
proved for well-formed inventories in which every host has a declared group. -/

/-- Claim C5, counterexample: a groupless host round-trips to a host whose
membership list is `[ungrouped]`, not the original empty membership, so the
group memberships per host are not preserved for every inventory value. -/
theorem roundTripAddsUngrouped :
    groupsOfHostName (roundTripInventory invGrouplessHost).hosts "db1" = some ["ungrouped"] ∧
    groupsOfHostName invGrouplessHost.hosts "db1" = some [] := by
  exact ⟨rfl, rfl⟩

theorem alookup_addHostEntry_self {V : Type} (d : List (String × GroupEntry V))
    (g hn : String) (hv : List (String × V)) :
    alookup (addHostEntry d g hn hv) g
      = some (match alookup d g with
              | none => ⟨[(hn, hv)], [], []⟩
              | some e => { e with hosts := ainsert e.hosts hn hv }) := by
  induction d with
  | nil => simp [addHostEntry, alookup]
  | cons p d ih =>
      obtain ⟨g', e⟩ := p
      by_cases h : g' = g
      · subst h
        simp [addHostEntry, alookup]
      · simp [addHostEntry, alookup, h, ih]

theorem alookup_addHostEntry_ne {V : Type} (d : List (String × GroupEntry V))
    (g q hn : String) (hv : List (String × V)) (h : q ≠ g) :
    alookup (addHostEntry d g hn hv) q = alookup d q := by
  have hg : g ≠ q := fun hh => h hh.symm
  induction d with
  | nil => simp [addHostEntry, alookup, hg]
  | cons p d ih =>
      obtain ⟨g', e⟩ := p
      by_cases h1 : g' = g
      · subst h1
        simp [addHostEntry, alookup, hg]
      · by_cases h2 : g' = q
        · subst h2
          simp [addHostEntry, alookup, h1]
        · simp [addHostEntry, alookup, h1, h2, ih]

theorem entryHostsLookup_addHostEntry_self {V : Type} (d : List (String × GroupEntry V))
    (g hn n : String) (hv : List (String × V)) :
    entryHostsLookup (addHostEntry d g hn hv) g n
      = if n = hn then some hv else entryHostsLookup d g n := by
  rw [entryHostsLookup, alookup_addHostEntry_self]
  cases hd : alookup d g with
  | none =>
      by_cases h : n = hn
      · subst h
        simp [alookup]
      · have hg : hn ≠ n := fun hh => h hh.symm
        simp [alookup, hg, h, entryHostsLookup, hd]
  | some e =>
      by_cases h : n = hn
      · subst h
        simp [alookup_ainsert_self]
      · have hg : hn ≠ n := fun hh => h hh.symm
        rw [if_neg h]
        show alookup (ainsert e.hosts hn hv) n = entryHostsLookup d g n
        rw [alookup_ainsert_ne e.hosts hn n hv hg, entryHostsLookup, hd]

theorem entryHostsLookup_addHostEntry_ne {V : Type} (d : List (String × GroupEntry V))
    (g q hn n : String) (hv : List (String × V)) (h : q ≠ g) :
    entryHostsLookup (addHostEntry d g hn hv) q n = entryHostsLookup d q n := by
  rw [entryHostsLookup, alookup_addHostEntry_ne d g q hn hv h, entryHostsLookup]

theorem entryHostsLookup_addHostEntry_ne_host {V : Type} (d : List (String × GroupEntry V))
    (g q hn n : String) (hv : List (String × V)) (h : n ≠ hn) :
    entryHostsLookup (addHostEntry d g hn hv) q n = entryHostsLookup d q n := by
  by_cases hq : q = g
  · subst hq
    rw [entryHostsLookup_addHostEntry_self, if_neg h]
  · exact entryHostsLookup_addHostEntry_ne d g q hn n hv hq

theorem entryHostsLookup_groupFold_ne_host {V : Type} (gs : List String)
    (d : List (String × GroupEntry V)) (q hn n : String) (hv : List (String × V))
    (h : n ≠ hn) :
    entryHostsLookup (gs.foldl (fun d g => addHostEntry d g hn hv) d) q n
      = entryHostsLookup d q n := by
  induction gs generalizing d with
  | nil => rfl
  | cons g gs ih =>
      rw [List.foldl_cons, ih, entryHostsLookup_addHostEntry_ne_host d g q hn n hv h]

theorem entryHostsLookup_groupFold_host {V : Type} (gs : List String)
    (d : List (String × GroupEntry V)) (q hn : String) (hv : List (String × V)) :
    entryHostsLookup (gs.foldl (fun d g => addHostEntry d g hn hv) d) q hn
      = if q ∈ gs then some hv else entryHostsLookup d q hn := by
  induction gs generalizing d with
  | nil => simp
  | cons g gs ih =>
      rw [List.foldl_cons, ih]
      by_cases hmem : q ∈ gs
      · rw [if_pos hmem, if_pos (List.mem_cons_of_mem g hmem)]
      · rw [if_neg hmem]
        by_cases hq : q = g
        · subst hq
          rw [entryHostsLookup_addHostEntry_self, if_pos rfl,
              if_pos (List.mem_cons_self q gs)]
        · rw [entryHostsLookup_addHostEntry_ne d g q hn hn hv hq, if_neg (by
            rw [List.mem_cons]
            rintro (h1 | h2)
            · exact hq h1
            · exact hmem h2)]

theorem entryHostsLookup_stepHost {V : Type} (d : List (String × GroupEntry V))
    (h : HostM V) (q n : String) (hgr : h.groups ≠ []) :
    entryHostsLookup (stepHost d h) q n
      = if q ∈ h.groups ∧ n = h.name then some h.hvars else entryHostsLookup d q n := by
  rw [stepHost]
  match hgs : h.groups, hgr with
  | g :: gs, _ =>
      by_cases hname : n = h.name
      · subst hname
        rw [entryHostsLookup_groupFold_host]
        by_cases hmem : q ∈ g :: gs
        · rw [if_pos hmem, if_pos ⟨hgs ▸ hmem, rfl⟩]
        · rw [if_neg hmem, if_neg (by
            rintro ⟨hmem2, -⟩
            exact hmem (hgs ▸ hmem2))]
      · rw [entryHostsLookup_groupFold_ne_host _ _ _ _ _ _ hname, if_neg (by
          rintro ⟨-, hn2⟩
          exact hname hn2)]

theorem hostFold_characterization {V : Type} (hosts : List (HostM V))
    (d : List (String × GroupEntry V)) (q n : String)
    (hnd : (hosts.map HostM.name).Nodup) (hne : ∀ h ∈ hosts, h.groups ≠ []) :
    entryHostsLookup (hosts.foldl stepHost d) q n
      = match hosts.find? (fun h => h.name = n) with
        | some h => if q ∈ h.groups then some h.hvars else entryHostsLookup d q n
        | none => entryHostsLookup d q n := by
  induction hosts generalizing d with
  | nil => rfl
  | cons h hosts ih =>
      rw [List.map_cons, List.nodup_cons] at hnd
      rw [List.foldl_cons,
          ih (stepHost d h) hnd.2 (fun h' hh => hne h' (List.mem_cons_of_mem h hh))]
      by_cases hname : h.name = n
      · subst hname
        have hfind : hosts.find? (fun h' => h'.name = h.name) = none := by
          rw [List.find?_eq_none]
          intro h' hh
          simp only [decide_eq_true_eq]
          intro heq
          exact hnd.1 (heq ▸ List.mem_map_of_mem HostM.name hh)
        rw [hfind, List.find?_cons_of_pos hosts (by simp),
            entryHostsLookup_stepHost d h q h.name (hne h (List.mem_cons_self h hosts))]
        by_cases hmem : q ∈ h.groups
        · simp [hmem]
        · simp [hmem]
      · rw [List.find?_cons_of_neg hosts (by simpa using hname)]
        have hbase : entryHostsLookup (stepHost d h) q n = entryHostsLookup d q n := by
          rw [entryHostsLookup_stepHost d h q n (hne h (List.mem_cons_self h hosts)),
              if_neg (by rintro ⟨-, hn2⟩; exact hname hn2.symm)]
        cases hfind : hosts.find? (fun h' => h'.name = n) with
        | none => simp [hbase]
        | some h' => simp [hbase]

theorem akeys_addHostEntry {V : Type} (d : List (String × GroupEntry V)) (g hn : String)
    (hv : List (String × V)) :
    akeys (addHostEntry d g hn hv) = if g ∈ akeys d then akeys d else akeys d ++ [g] := by
  induction d with
  | nil => simp [addHostEntry, akeys_nil, akeys_cons]
  | cons p d ih =>
      obtain ⟨g', e⟩ := p
      by_cases h : g' = g
      · subst h
        simp [addHostEntry, akeys_cons]
      · have hne : g ≠ g' := fun hh => h hh.symm
        simp only [addHostEntry, h, if_false, akeys_cons, ih]
        by_cases hmem : g ∈ akeys d
        · simp [akeys_cons, hmem]
        · simp [akeys_cons, hmem, hne]

theorem mem_akeys_addHostEntry {V : Type} (d : List (String × GroupEntry V)) (g q hn : String)
    (hv : List (String × V)) :
    q ∈ akeys (addHostEntry d g hn hv) ↔ q = g ∨ q ∈ akeys d := by
  rw [akeys_addHostEntry]
  by_cases h : g ∈ akeys d
  · rw [if_pos h]
    constructor
    · exact fun hq => Or.inr hq
    · rintro (rfl | hq)
      · exact h
      · exact hq
  · rw [if_neg h]
    simp [or_comm]

theorem nodup_akeys_addHostEntry {V : Type} (d : List (String × GroupEntry V)) (g hn : String)
    (hv : List (String × V)) (h : (akeys d).Nodup) :
    (akeys (addHostEntry d g hn hv)).Nodup := by
  rw [akeys_addHostEntry]
  by_cases hmem : g ∈ akeys d
  · rw [if_pos hmem]; exact h
  · rw [if_neg hmem]
    simp [List.nodup_append, h, hmem]

theorem plainEntries_addHostEntry {V : Type} (d : List (String × GroupEntry V))
    (g hn : String) (hv : List (String × V))
    (h : ∀ q e, alookup d q = some e → e.gvars = [] ∧ e.children = []) :
    ∀ q e, alookup (addHostEntry d g hn hv) q = some e → e.gvars = [] ∧ e.children = [] := by
  intro q e hq
  by_cases hg : q = g
  · subst hg
    rw [alookup_addHostEntry_self] at hq
    cases hd : alookup d q with
    | none => rw [hd] at hq; cases hq; exact ⟨rfl, rfl⟩
    | some e0 =>
        rw [hd] at hq
        cases hq
        exact h q e0 hd
  · rw [alookup_addHostEntry_ne d g q hn hv hg] at hq
    exact h q e hq

theorem plainEntries_hostGroupFold {V : Type} (gs : List String)
    (d : List (String × GroupEntry V)) (hn : String) (hv : List (String × V))
    (h : ∀ q e, alookup d q = some e → e.gvars = [] ∧ e.children = []) :
    ∀ q e, alookup (gs.foldl (fun d g => addHostEntry d g hn hv) d) q = some e →
      e.gvars = [] ∧ e.children = [] := by
  induction gs generalizing d with
  | nil => exact h
  | cons g gs ih =>
      rw [List.foldl_cons]
      exact ih (addHostEntry d g hn hv) (plainEntries_addHostEntry d g hn hv h)

theorem plainEntries_hostFold {V : Type} (hosts : List (HostM V))
    (d : List (String × GroupEntry V))
    (h : ∀ q e, alookup d q = some e → e.gvars = [] ∧ e.children = []) :
    ∀ q e, alookup (hosts.foldl stepHost d) q = some e → e.gvars = [] ∧ e.children = [] := by
  induction hosts generalizing d with
  | nil => exact h
  | cons h0 hosts ih =>
      rw [List.foldl_cons]
      refine ih (stepHost d h0) ?_
      rw [stepHost]
      match h0.groups with
      | [] => exact plainEntries_addHostEntry d "ungrouped" h0.name h0.hvars h
      | g :: gs => exact plainEntries_hostGroupFold (g :: gs) d h0.name h0.hvars h

theorem mem_akeys_hostGroupFold {V : Type} (gs : List String)
    (d : List (String × GroupEntry V)) (q hn : String) (hv : List (String × V)) :
    q ∈ akeys (gs.foldl (fun d g => addHostEntry d g hn hv) d) ↔ q ∈ gs ∨ q ∈ akeys d := by
  induction gs generalizing d with
  | nil => simp
  | cons g gs ih =>
      rw [List.foldl_cons, ih, mem_akeys_addHostEntry, List.mem_cons]
      tauto

theorem nodup_akeys_hostGroupFold {V : Type} (gs : List String)
    (d : List (String × GroupEntry V)) (hn : String) (hv : List (String × V))
    (h : (akeys d).Nodup) :
    (akeys (gs.foldl (fun d g => addHostEntry d g hn hv) d)).Nodup := by
  induction gs generalizing d with
  | nil => exact h
  | cons g gs ih =>
      rw [List.foldl_cons]
      exact ih _ (nodup_akeys_addHostEntry d g hn hv h)

theorem mem_akeys_stepHost {V : Type} (d : List (String × GroupEntry V)) (h : HostM V)
    (q : String) (hgr : h.groups ≠ []) :
    q ∈ akeys (stepHost d h) ↔ q ∈ h.groups ∨ q ∈ akeys d := by
  rw [stepHost]
  match hgs : h.groups, hgr with
  | g :: gs, _ => rw [mem_akeys_hostGroupFold]

theorem nodup_akeys_stepHost {V : Type} (d : List (String × GroupEntry V)) (h : HostM V)
    (hnd : (akeys d).Nodup) : (akeys (stepHost d h)).Nodup := by
  rw [stepHost]
  match h.groups with
  | [] => exact nodup_akeys_addHostEntry d "ungrouped" h.name h.hvars hnd
  | g :: gs => exact nodup_akeys_hostGroupFold (g :: gs) d h.name h.hvars hnd

theorem mem_akeys_hostFold {V : Type} (hosts : List (HostM V))
    (d : List (String × GroupEntry V)) (q : String)
    (hne : ∀ h ∈ hosts, h.groups ≠ []) :
    q ∈ akeys (hosts.foldl stepHost d) ↔ (∃ h ∈ hosts, q ∈ h.groups) ∨ q ∈ akeys d := by
  induction hosts generalizing d with
  | nil => simp
  | cons h hosts ih =>
      rw [List.foldl_cons,
          ih (stepHost d h) (fun h' hh => hne h' (List.mem_cons_of_mem h hh)),
          mem_akeys_stepHost d h q (hne h (List.mem_cons_self h hosts))]
      constructor
      · rintro (⟨h', hh', hq⟩ | hq | hq)
        · exact Or.inl ⟨h', List.mem_cons_of_mem h hh', hq⟩
        · exact Or.inl ⟨h, List.mem_cons_self h hosts, hq⟩
        · exact Or.inr hq
      · rintro (⟨h', hh', hq⟩ | hq)
        · rcases List.mem_cons.mp hh' with rfl | hh'
          · exact Or.inr (Or.inl hq)
          · exact Or.inl ⟨h', hh', hq⟩
        · exact Or.inr (Or.inr hq)

theorem nodup_akeys_hostFold {V : Type} (hosts : List (HostM V))
    (d : List (String × GroupEntry V)) (hnd : (akeys d).Nodup) :
    (akeys (hosts.foldl stepHost d)).Nodup := by
  induction hosts generalizing d with
  | nil => exact hnd
  | cons h hosts ih =>
      rw [List.foldl_cons]
      exact ih _ (nodup_akeys_stepHost d h hnd)

theorem alookup_updateEntry_self {V : Type} (d : List (String × GroupEntry V)) (k : String)
    (f : GroupEntry V → GroupEntry V) :
    alookup (updateEntry d k f) k = (alookup d k).map f := by
  induction d with
  | nil => rfl
  | cons p d ih =>
      obtain ⟨k', e⟩ := p
      by_cases h : k' = k
      · subst h
        simp [updateEntry, alookup]
      · simp [updateEntry, alookup, h, ih]

theorem alookup_updateEntry_ne {V : Type} (d : List (String × GroupEntry V)) (k q : String)
    (f : GroupEntry V → GroupEntry V) (h : q ≠ k) :
    alookup (updateEntry d k f) q = alookup d q := by
  induction d with
  | nil => rfl
  | cons p d ih =>
      obtain ⟨k', e⟩ := p
      by_cases h1 : k' = k
      · subst h1
        have hne : ¬k' = q := fun hh => h hh.symm
        simp [updateEntry, alookup, hne]
      · by_cases h2 : k' = q
        · subst h2
          simp [updateEntry, alookup, h1]
        · simp [updateEntry, alookup, h1, h2, ih]

theorem akeys_updateEntry {V : Type} (d : List (String × GroupEntry V)) (k : String)
    (f : GroupEntry V → GroupEntry V) :
    akeys (updateEntry d k f) = akeys d := by
  induction d with
  | nil => rfl
  | cons p d ih =>
      obtain ⟨k', e⟩ := p
      by_cases h : k' = k
      · subst h
        simp [updateEntry, akeys_cons]
      · simp [updateEntry, akeys_cons, h, ih]

theorem alookup_append_single {V : Type} (d : List (String × GroupEntry V)) (k q : String)
    (e : GroupEntry V) :
    alookup (d ++ [(k, e)]) q
      = match alookup d q with
        | some v => some v
        | none => if k = q then some e else none := by
  induction d with
  | nil => simp [alookup]
  | cons p d ih =>
      obtain ⟨k', e'⟩ := p
      by_cases h : k' = q
      · simp [alookup, h]
      · simp [alookup, h, ih]

theorem alookup_ensureEntry_ne {V : Type} (d : List (String × GroupEntry V))
    (gname q : String) (h : gname ≠ q) :
    alookup (ensureEntry d gname) q = alookup d q := by
  rw [ensureEntry]
  split
  · rfl
  · rw [alookup_append_single]
    cases alookup d q with
    | some v => rfl
    | none => simp [h]

theorem alookup_ensureEntry_self {V : Type} (d : List (String × GroupEntry V))
    (gname : String) :
    alookup (ensureEntry d gname) gname
      = some ((alookup d gname).getD ⟨[], [], []⟩) := by
  rw [ensureEntry]
  cases hd : alookup d gname with
  | some e => simp [hd]
  | none =>
      simp only [hd, Option.isSome_none, Bool.false_eq_true, if_false]
      rw [alookup_append_single, hd]
      simp

theorem alookup_stepGroup_ne {V : Type} (d : List (String × GroupEntry V)) (g : GroupM V)
    (q : String) (h : g.name ≠ q) :
    alookup (stepGroup d g) q = alookup d q := by
  have hq : q ≠ g.name := fun hh => h hh.symm
  rw [stepGroup, setGroupChildren]
  have h2 : alookup (setGroupVars (ensureEntry d g.name) g) q = alookup d q := by
    rw [setGroupVars]
    split
    · exact alookup_ensureEntry_ne d g.name q h
    · rw [alookup_updateEntry_ne _ _ _ _ hq]
      exact alookup_ensureEntry_ne d g.name q h
  split
  · exact h2
  · rw [alookup_updateEntry_ne _ _ _ _ hq]
    exact h2

theorem alookup_stepGroup_self {V : Type} (d : List (String × GroupEntry V)) (g : GroupM V)
    (hplain : ∀ e0, alookup d g.name = some e0 → e0.gvars = []) :
    ∃ e', alookup (stepGroup d g) g.name = some e' ∧ e'.gvars = g.gvars ∧
      e'.hosts = ((alookup d g.name).getD ⟨[], [], []⟩).hosts := by
  have h1 := alookup_ensureEntry_self d g.name
  have h1plain : ((alookup d g.name).getD (⟨[], [], []⟩ : GroupEntry V)).gvars = [] := by
    cases hd : alookup d g.name with
    | none => rfl
    | some e0 => simpa using hplain e0 hd
  have h2 : ∃ e2, alookup (setGroupVars (ensureEntry d g.name) g) g.name = some e2 ∧
      e2.gvars = g.gvars ∧
      e2.hosts = ((alookup d g.name).getD ⟨[], [], []⟩).hosts := by
    rw [setGroupVars]
    split
    · next hemp =>
        refine ⟨_, h1, ?_, rfl⟩
        rw [h1plain, List.isEmpty_iff.mp hemp]
    · rw [alookup_updateEntry_self, h1]
      exact ⟨_, rfl, rfl, rfl⟩
  obtain ⟨e2, he2, he2v, he2h⟩ := h2
  rw [stepGroup, setGroupChildren]
  split
  · exact ⟨e2, he2, he2v, he2h⟩
  · rw [alookup_updateEntry_self, he2]
    exact ⟨_, rfl, he2v, he2h⟩

theorem alookup_stepGroup_hosts {V : Type} (d : List (String × GroupEntry V))
    (g : GroupM V) :
    (alookup (stepGroup d g) g.name).map GroupEntry.hosts
      = some ((alookup d g.name).getD ⟨[], [], []⟩).hosts := by
  have h1 := alookup_ensureEntry_self d g.name
  have h2 : (alookup (setGroupVars (ensureEntry d g.name) g) g.name).map GroupEntry.hosts
      = some ((alookup d g.name).getD ⟨[], [], []⟩).hosts := by
    rw [setGroupVars]
    split
    · rw [h1]; rfl
    · rw [alookup_updateEntry_self, h1]; rfl
  rw [stepGroup, setGroupChildren]
  split
  · exact h2
  · rw [alookup_updateEntry_self]
    cases hs : alookup (setGroupVars (ensureEntry d g.name) g) g.name with
    | none => rw [hs] at h2; cases h2
    | some e2 =>
        rw [hs] at h2
        simp at h2
        simp [h2]

theorem entryHostsLookup_stepGroup {V : Type} (d : List (String × GroupEntry V))
    (g : GroupM V) (q n : String) :
    entryHostsLookup (stepGroup d g) q n = entryHostsLookup d q n := by
  by_cases h : g.name = q
  · subst h
    have hh := alookup_stepGroup_hosts d g
    rw [entryHostsLookup]
    cases hs : alookup (stepGroup d g) g.name with
    | none => rw [hs] at hh; cases hh
    | some e' =>
        rw [hs] at hh
        simp at hh
        rw [entryHostsLookup]
        cases hd : alookup d g.name with
        | none =>
            rw [hd] at hh
            simp at hh
            simp [hh, alookup]
        | some e0 =>
            rw [hd] at hh
            simp at hh
            simp [hh]
  · rw [entryHostsLookup, alookup_stepGroup_ne d g q h, entryHostsLookup]

theorem entryHostsLookup_groupFold {V : Type} (gs : List (GroupM V))
    (d : List (String × GroupEntry V)) (q n : String) :
    entryHostsLookup (gs.foldl stepGroup d) q n = entryHostsLookup d q n := by
  induction gs generalizing d with
  | nil => rfl
  | cons g gs ih =>
      rw [List.foldl_cons, ih, entryHostsLookup_stepGroup]

theorem alookup_groupFold_ne {V : Type} (gs : List (GroupM V))
    (d : List (String × GroupEntry V)) (q : String) (h : ∀ g ∈ gs, g.name ≠ q) :
    alookup (gs.foldl stepGroup d) q = alookup d q := by
  induction gs generalizing d with
  | nil => rfl
  | cons g gs ih =>
      rw [List.foldl_cons, ih _ (fun g' hg' => h g' (List.mem_cons_of_mem g hg')),
          alookup_stepGroup_ne d g q (h g (List.mem_cons_self g gs))]

theorem groupFold_vars {V : Type} (gs : List (GroupM V))
    (d : List (String × GroupEntry V)) (g : GroupM V)
    (hnd : (gs.map GroupM.name).Nodup) (hg : g ∈ gs)
    (hplain : ∀ e0, alookup d g.name = some e0 → e0.gvars = []) :
    ∃ e', alookup (gs.foldl stepGroup d) g.name = some e' ∧ e'.gvars = g.gvars ∧
      e'.hosts = ((alookup d g.name).getD ⟨[], [], []⟩).hosts := by
  induction gs generalizing d with
  | nil => cases hg
  | cons g0 gs ih =>
      rw [List.map_cons, List.nodup_cons] at hnd
      rcases List.mem_cons.mp hg with rfl | hg'
      · obtain ⟨e', he', hv, hh⟩ := alookup_stepGroup_self d g hplain
        rw [List.foldl_cons,
            alookup_groupFold_ne gs (stepGroup d g) g.name
              (fun g' hg' heq => hnd.1 (heq ▸ List.mem_map_of_mem GroupM.name hg'))]
        exact ⟨e', he', hv, hh⟩
      · have hne0 : g0.name ≠ g.name := by
          intro heq
          exact hnd.1 (heq ▸ List.mem_map_of_mem GroupM.name hg')
        rw [List.foldl_cons]
        have hrw : alookup (stepGroup d g0) g.name = alookup d g.name :=
          alookup_stepGroup_ne d g0 g.name hne0
        obtain ⟨e', he', hv, hh⟩ := ih (stepGroup d g0) hnd.2 hg' (by rw [hrw]; exact hplain)
        refine ⟨e', he', hv, ?_⟩
        rw [hh, hrw]

theorem akeys_ensureEntry {V : Type} (d : List (String × GroupEntry V)) (gname : String) :
    akeys (ensureEntry d gname)
      = if gname ∈ akeys d then akeys d else akeys d ++ [gname] := by
  rw [ensureEntry]
  by_cases h : gname ∈ akeys d
  · rw [if_pos ((alookup_isSome_iff_mem_akeys d gname).mpr h), if_pos h]
  · rw [if_neg (by
        intro hs
        exact h ((alookup_isSome_iff_mem_akeys d gname).mp hs)),
        if_neg h, akeys_append, akeys_cons, akeys_nil]

theorem akeys_stepGroup {V : Type} (d : List (String × GroupEntry V)) (g : GroupM V) :
    akeys (stepGroup d g)
      = if g.name ∈ akeys d then akeys d else akeys d ++ [g.name] := by
  have h2 : akeys (setGroupVars (ensureEntry d g.name) g) = akeys (ensureEntry d g.name) := by
    rw [setGroupVars]
    split
    · rfl
    · exact akeys_updateEntry _ _ _
  rw [stepGroup, setGroupChildren]
  split
  · rw [h2, akeys_ensureEntry]
  · rw [akeys_updateEntry, h2, akeys_ensureEntry]

theorem mem_akeys_stepGroup {V : Type} (d : List (String × GroupEntry V)) (g : GroupM V)
    (q : String) :
    q ∈ akeys (stepGroup d g) ↔ q = g.name ∨ q ∈ akeys d := by
  rw [akeys_stepGroup]
  by_cases h : g.name ∈ akeys d
  · rw [if_pos h]
    constructor
    · exact fun hq => Or.inr hq
    · rintro (rfl | hq)
      · exact h
      · exact hq
  · rw [if_neg h]
    simp [or_comm]

theorem nodup_akeys_stepGroup {V : Type} (d : List (String × GroupEntry V)) (g : GroupM V)
    (h : (akeys d).Nodup) : (akeys (stepGroup d g)).Nodup := by
  rw [akeys_stepGroup]
  by_cases hmem : g.name ∈ akeys d
  · rw [if_pos hmem]; exact h
  · rw [if_neg hmem]
    simp [List.nodup_append, h, hmem]

theorem mem_akeys_groupFold {V : Type} (gs : List (GroupM V))
    (d : List (String × GroupEntry V)) (q : String) :
    q ∈ akeys (gs.foldl stepGroup d) ↔ q ∈ gs.map GroupM.name ∨ q ∈ akeys d := by
  induction gs generalizing d with
  | nil => simp
  | cons g gs ih =>
      rw [List.foldl_cons, ih, mem_akeys_stepGroup, List.map_cons, List.mem_cons]
      tauto

theorem nodup_akeys_groupFold {V : Type} (gs : List (GroupM V))
    (d : List (String × GroupEntry V)) (h : (akeys d).Nodup) :
    (akeys (gs.foldl stepGroup d)).Nodup := by
  induction gs generalizing d with
  | nil => exact h
  | cons g gs ih =>
      rw [List.foldl_cons]
      exact ih _ (nodup_akeys_stepGroup d g h)

theorem mem_akeys_of_mem {α : Type} (d : List (String × α)) (q : String) (e : α)
    (h : (q, e) ∈ d) : q ∈ akeys d :=
  List.mem_map_of_mem Prod.fst h

theorem mem_iff_alookup {α : Type} (d : List (String × α)) (q : String) (e : α)
    (hnd : (akeys d).Nodup) : (q, e) ∈ d ↔ alookup d q = some e := by
  induction d with
  | nil => simp [alookup]
  | cons p d ih =>
      obtain ⟨k', v'⟩ := p
      rw [akeys_cons, List.nodup_cons] at hnd
      by_cases h : k' = q
      · subst h
        simp only [alookup, if_pos rfl, List.mem_cons]
        constructor
        · rintro (heq | hmem)
          · cases heq; rfl
          · exact absurd (mem_akeys_of_mem d k' e hmem) hnd.1
        · intro heq
          cases heq
          exact Or.inl rfl
      · simp only [alookup, h, if_false, List.mem_cons]
        rw [← ih hnd.2]
        constructor
        · rintro (heq | hmem)
          · cases heq; exact absurd rfl h
          · exact hmem
        · exact Or.inr

theorem mem_akeys_hvInnerFold {V : Type} (hosts : List (String × List (String × V)))
    (acc : List (String × List (String × V))) (n : String) :
    n ∈ akeys (hosts.foldl (fun hv h => ainsert hv h.1 h.2) acc)
      ↔ n ∈ akeys hosts ∨ n ∈ akeys acc := by
  induction hosts generalizing acc with
  | nil => simp [akeys_nil]
  | cons h hosts ih =>
      obtain ⟨hn, hvv⟩ := h
      rw [List.foldl_cons, ih, akeys_cons, List.mem_cons, mem_akeys_ainsert]
      tauto

theorem mem_akeys_hostvars {V : Type} (d : List (String × GroupEntry V))
    (acc : List (String × List (String × V))) (n : String) :
    n ∈ akeys (d.foldl
        (fun hv p => p.2.hosts.foldl (fun hv h => ainsert hv h.1 h.2) hv) acc)
      ↔ (∃ p ∈ d, n ∈ akeys p.2.hosts) ∨ n ∈ akeys acc := by
  induction d generalizing acc with
  | nil => simp
  | cons p d ih =>
      rw [List.foldl_cons, ih, mem_akeys_hvInnerFold]
      constructor
      · rintro (⟨p', hp', hm⟩ | hm | hm)
        · exact Or.inl ⟨p', List.mem_cons_of_mem p hp', hm⟩
        · exact Or.inl ⟨p, List.mem_cons_self p d, hm⟩
        · exact Or.inr hm
      · rintro (⟨p', hp', hm⟩ | hm)
        · rcases List.mem_cons.mp hp' with rfl | hp'
          · exact Or.inr (Or.inl hm)
          · exact Or.inl ⟨p', hp', hm⟩
        · exact Or.inr (Or.inr hm)

theorem alookup_apushVal_self (hg : List (String × List String)) (k v : String) :
    alookup (apushVal hg k v) k = some ((alookup hg k).getD [] ++ [v]) := by
  induction hg with
  | nil => simp [apushVal, alookup]
  | cons p hg ih =>
      obtain ⟨k', vs⟩ := p
      by_cases h : k' = k
      · subst h
        simp [apushVal, alookup]
      · simp [apushVal, alookup, h, ih]

theorem alookup_apushVal_ne (hg : List (String × List String)) (k q v : String)
    (h : q ≠ k) : alookup (apushVal hg k v) q = alookup hg q := by
  have hk : k ≠ q := fun hh => h hh.symm
  induction hg with
  | nil => simp [apushVal, alookup, hk]
  | cons p hg ih =>
      obtain ⟨k', vs⟩ := p
      by_cases h1 : k' = k
      · subst h1
        have hne : ¬k' = q := fun hh => h hh.symm
        simp [apushVal, alookup, hne]
      · by_cases h2 : k' = q
        · subst h2
          simp [apushVal, alookup, h1]
        · simp [apushVal, alookup, h1, h2, ih]

theorem mem_hgInnerFold (names : List String) (acc : List (String × List String))
    (gname n g : String) :
    g ∈ (alookup (names.foldl (fun hg hn => apushVal hg hn gname) acc) n).getD []
      ↔ (n ∈ names ∧ g = gname) ∨ g ∈ (alookup acc n).getD [] := by
  induction names generalizing acc with
  | nil => simp
  | cons hn names ih =>
      rw [List.foldl_cons, ih]
      by_cases h : n = hn
      · subst h
        rw [alookup_apushVal_self, Option.getD_some]
        constructor
        · rintro (⟨hm, rfl⟩ | hm)
          · exact Or.inl ⟨List.mem_cons_of_mem _ hm, rfl⟩
          · rcases List.mem_append.mp hm with hm | hm
            · exact Or.inr hm
            · exact Or.inl ⟨List.mem_cons_self _ _, List.mem_singleton.mp hm⟩
        · rintro (⟨-, rfl⟩ | hm)
          · exact Or.inr (List.mem_append.mpr (Or.inr (List.mem_singleton.mpr rfl)))
          · exact Or.inr (List.mem_append.mpr (Or.inl hm))
      · rw [alookup_apushVal_ne acc hn n gname h]
        constructor
        · rintro (⟨hm, rfl⟩ | hm)
          · exact Or.inl ⟨List.mem_cons_of_mem _ hm, rfl⟩
          · exact Or.inr hm
        · rintro (⟨hm, rfl⟩ | hm)
          · rcases List.mem_cons.mp hm with heq | hm2
            · exact absurd heq h
            · exact Or.inl ⟨hm2, rfl⟩
          · exact Or.inr hm

theorem mem_hostGroupsOf {V : Type} (gs : List (String × GroupData V)) (n g : String) :
    g ∈ (alookup (hostGroupsOf gs) n).getD []
      ↔ ∃ p ∈ gs, p.1 = g ∧ n ∈ p.2.hostNames := by
  suffices hgen : ∀ (gs : List (String × GroupData V)) (acc : List (String × List String)),
      g ∈ (alookup (gs.foldl
            (fun hg p => p.2.hostNames.foldl (fun hg hn => apushVal hg hn p.1) hg) acc) n).getD []
        ↔ (∃ p ∈ gs, p.1 = g ∧ n ∈ p.2.hostNames) ∨ g ∈ (alookup acc n).getD [] by
    rw [hostGroupsOf, hgen]
    simp [alookup]
  intro gs
  induction gs with
  | nil => simp
  | cons p gs ih =>
      intro acc
      rw [List.foldl_cons, ih, mem_hgInnerFold]
      constructor
      · rintro (⟨p', hp', hg', hm⟩ | ⟨hm, rfl⟩ | hm)
        · exact Or.inl ⟨p', List.mem_cons_of_mem p hp', hg', hm⟩
        · exact Or.inl ⟨p, List.mem_cons_self p gs, rfl, hm⟩
        · exact Or.inr hm
      · rintro (⟨p', hp', hg', hm⟩ | hm)
        · rcases List.mem_cons.mp hp' with rfl | hp'
          · exact Or.inr (Or.inl ⟨hm, hg'.symm⟩)
          · exact Or.inl ⟨p', hp', hg', hm⟩
        · exact Or.inr (Or.inr hm)

theorem find?_decoded_groups {V : Type} (d : List (String × GroupEntry V)) (q : String) :
    ((d.map (fun p => (⟨p.1, p.2.gvars, p.2.children⟩ : GroupM V))).find?
        (fun gr => gr.name = q))
      = (alookup d q).map (fun e => ⟨q, e.gvars, e.children⟩) := by
  induction d with
  | nil => rfl
  | cons p d ih =>
      obtain ⟨k', e⟩ := p
      by_cases h : k' = q
      · subst h
        rw [List.map_cons, List.find?_cons_of_pos _ (by simp)]
        simp [alookup]
      · rw [List.map_cons, List.find?_cons_of_neg _ (by simp [h]), ih]
        simp [alookup, h]

theorem find?_host_by_name {V : Type} (hosts : List (HostM V)) (h : HostM V)
    (hnd : (hosts.map HostM.name).Nodup) (hmem : h ∈ hosts) :
    hosts.find? (fun h' => h'.name = h.name) = some h := by
  induction hosts with
  | nil => cases hmem
  | cons h0 hosts ih =>
      rw [List.map_cons, List.nodup_cons] at hnd
      rcases List.mem_cons.mp hmem with rfl | hmem'
      · rw [List.find?_cons_of_pos _ (by simp)]
      · have hne : h0.name ≠ h.name := by
          intro heq
          exact hnd.1 (heq ▸ List.mem_map_of_mem HostM.name hmem')
        rw [List.find?_cons_of_neg _ (by simp [hne]), ih hnd.2 hmem']

theorem encode_entry_hosts_iff {V : Type} (inv : InventoryM V)
    (hndH : (inv.hosts.map HostM.name).Nodup) (hne : ∀ h ∈ inv.hosts, h.groups ≠ [])
    (q n : String) :
    (entryHostsLookup (encodeInventory inv) q n).isSome
      ↔ ∃ h ∈ inv.hosts, h.name = n ∧ q ∈ h.groups := by
  rw [encodeInventory, entryHostsLookup_groupFold,
      hostFold_characterization inv.hosts [] q n hndH hne]
  cases hfind : inv.hosts.find? (fun h => h.name = n) with
  | none =>
      have hnone : entryHostsLookup ([] : List (String × GroupEntry V)) q n = none := rfl
      simp only [hnone, Option.isSome_none, Bool.false_eq_true, false_iff]
      rintro ⟨h, hh, hname, -⟩
      have := List.find?_eq_none.mp hfind h hh
      simp [hname] at this
  | some h0 =>
      have hmem0 := List.mem_of_find?_eq_some hfind
      have hname0 : h0.name = n := by
        have := List.find?_some hfind
        simpa using this
      show (if q ∈ h0.groups then some h0.hvars
            else entryHostsLookup ([] : List (String × GroupEntry V)) q n).isSome = true
          ↔ ∃ h ∈ inv.hosts, h.name = n ∧ q ∈ h.groups
      by_cases hq : q ∈ h0.groups
      · rw [if_pos hq]
        simp only [Option.isSome_some, true_iff]
        exact ⟨h0, hmem0, hname0, hq⟩
      · rw [if_neg hq]
        have hnone : entryHostsLookup ([] : List (String × GroupEntry V)) q n = none := rfl
        simp only [hnone, Option.isSome_none, Bool.false_eq_true, false_iff]
        rintro ⟨h, hh, hname, hqh⟩
        have huniq : inv.hosts.find? (fun h' => h'.name = n) = some h := by
          have := find?_host_by_name inv.hosts h hndH hh
          rwa [hname] at this
        rw [hfind] at huniq
        cases huniq
        exact hq hqh

theorem akeys_encode_sub {V : Type} (inv : InventoryM V)
    (hne : ∀ h ∈ inv.hosts, h.groups ≠ [])
    (hdecl : ∀ h ∈ inv.hosts, ∀ g ∈ h.groups, g ∈ inv.groups.map GroupM.name) :
    ∀ q, q ∈ akeys (encodeInventory inv) → q ∈ inv.groups.map GroupM.name := by
  intro q hq
  rw [encodeInventory, mem_akeys_groupFold] at hq
  rcases hq with hq | hq
  · exact hq
  · rw [mem_akeys_hostFold inv.hosts [] q hne] at hq
    rcases hq with ⟨h, hh, hg⟩ | hq
    · exact hdecl h hh q hg
    · rw [akeys_nil] at hq
      exact absurd hq (List.not_mem_nil q)

theorem nodup_akeys_encode {V : Type} (inv : InventoryM V) :
    (akeys (encodeInventory inv)).Nodup := by
  rw [encodeInventory]
  refine nodup_akeys_groupFold _ _ (nodup_akeys_hostFold _ _ ?_)
  rw [akeys_nil]
  exact List.nodup_nil

/-- Claim C5, amended: for every well-formed inventory — distinct host
names, distinct group names, every host in at least one declared group,
every host-referenced group declared, and no group named `_meta` or `all` —
encoding to a file and decoding the engine's listing of it preserves the set
of host names, the group memberships of every host (as sets), and the group
variable mappings (same variables for every declared group, and every decoded
group is a declared group with its variables).  Without the at-least-one-group
condition the round trip fails: the counterexample adds an `ungrouped`
membership. -/
theorem inventoryRoundTrip (V : Type) (inv : InventoryM V)
    (hndH : (inv.hosts.map HostM.name).Nodup)
    (hndG : (inv.groups.map GroupM.name).Nodup)
    (hne : ∀ h ∈ inv.hosts, h.groups ≠ [])
    (hdecl : ∀ h ∈ inv.hosts, ∀ g ∈ h.groups, g ∈ inv.groups.map GroupM.name)
    (hforb : ∀ g ∈ inv.groups, g.name ≠ "_meta" ∧ g.name ≠ "all") :
    (∀ n, n ∈ (roundTripInventory inv).hosts.map HostM.name
        ↔ n ∈ inv.hosts.map HostM.name) ∧
    (∀ h ∈ inv.hosts, ∀ h' ∈ (roundTripInventory inv).hosts, h'.name = h.name →
        ∀ g, g ∈ h'.groups ↔ g ∈ h.groups) ∧
    (∀ g ∈ inv.groups,
        varsOfGroupName (roundTripInventory inv).groups g.name = some g.gvars) ∧
    (∀ g' ∈ (roundTripInventory inv).groups,
        ∃ g ∈ inv.groups, g'.name = g.name ∧ g'.gvars = g.gvars) := by
  have hndD : (akeys (encodeInventory inv)).Nodup := nodup_akeys_encode inv
  have hkeysub := akeys_encode_sub inv hne hdecl
  have hforbKeys : ∀ q, q ∈ akeys (encodeInventory inv) → q ≠ "_meta" ∧ q ≠ "all" := by
    intro q hq
    rcases List.mem_map.mp (hkeysub q hq) with ⟨g, hg, rfl⟩
    exact hforb g hg
  have hLgroups : (engineListing (encodeInventory inv)).groups
      = (encodeInventory inv).map
          (fun p => (p.1, (⟨akeys p.2.hosts, p.2.gvars, p.2.children⟩ : GroupData V))) := rfl
  have hfilter : ((engineListing (encodeInventory inv)).groups.filter
        (fun p => p.1 ≠ "_meta" && p.1 ≠ "all"))
      = (engineListing (encodeInventory inv)).groups := by
    refine List.filter_eq_self.mpr ?_
    intro p hp
    rw [hLgroups] at hp
    rcases List.mem_map.mp hp with ⟨p0, hp0, rfl⟩
    have hk := hforbKeys p0.1 (mem_akeys_of_mem _ p0.1 p0.2 (by simpa using hp0))
    simp [hk.1, hk.2]
  have hhosts : (roundTripInventory inv).hosts
      = (engineListing (encodeInventory inv)).hostvars.map
          (fun p => (⟨p.1, p.2,
            (alookup (hostGroupsOf ((engineListing (encodeInventory inv)).groups.filter
              (fun p => p.1 ≠ "_meta" && p.1 ≠ "all"))) p.1).getD []⟩ : HostM V)) := rfl
  have hgroupsEq : (roundTripInventory inv).groups
      = ((engineListing (encodeInventory inv)).groups.filter
          (fun p => p.1 ≠ "_meta" && p.1 ≠ "all")).map
          (fun p => (⟨p.1, p.2.gvars, p.2.children⟩ : GroupM V)) := rfl
  have hplainBase : ∀ q e, alookup (inv.hosts.foldl stepHost []) q = some e →
      e.gvars = [] ∧ e.children = [] := by
    refine plainEntries_hostFold inv.hosts [] ?_
    intro q e hq
    cases hq
  -- the central bridge: a host entry exists for (q, n) iff the host named n
  -- declares membership in q
  have hbridge := encode_entry_hosts_iff inv hndH hne
  -- membership in the hostvars keys is membership in the original host names
  have hhv : ∀ n, n ∈ akeys (engineListing (encodeInventory inv)).hostvars
      ↔ n ∈ inv.hosts.map HostM.name := by
    intro n
    rw [show (engineListing (encodeInventory inv)).hostvars
          = (encodeInventory inv).foldl
              (fun hv p => p.2.hosts.foldl (fun hv h => ainsert hv h.1 h.2) hv) [] from rfl,
        mem_akeys_hostvars]
    rw [akeys_nil]
    constructor
    · rintro (⟨p, hp, hm⟩ | hm)
      · have hlk : alookup (encodeInventory inv) p.1 = some p.2 :=
          (mem_iff_alookup _ p.1 p.2 hndD).mp (by simpa using hp)
        have hs : (entryHostsLookup (encodeInventory inv) p.1 n).isSome := by
          rw [entryHostsLookup, hlk]
          exact (alookup_isSome_iff_mem_akeys _ n).mpr hm
        rcases (hbridge p.1 n).mp hs with ⟨h, hh, hname, -⟩
        exact hname ▸ List.mem_map_of_mem HostM.name hh
      · exact absurd hm (List.not_mem_nil n)
    · intro hn
      rcases List.mem_map.mp hn with ⟨h, hh, rfl⟩
      match hgs : h.groups, hne h hh with
      | g0 :: gs, _ =>
          have hs : (entryHostsLookup (encodeInventory inv) g0 h.name).isSome :=
            (hbridge g0 h.name).mpr ⟨h, hh, rfl, by rw [hgs]; exact List.mem_cons_self g0 gs⟩
          rw [entryHostsLookup] at hs
          cases hlk : alookup (encodeInventory inv) g0 with
          | none => rw [hlk] at hs; exact absurd hs (by simp)
          | some e =>
              rw [hlk] at hs
              refine Or.inl ⟨(g0, e), ?_, (alookup_isSome_iff_mem_akeys _ h.name).mp hs⟩
              exact (mem_iff_alookup _ g0 e hndD).mpr hlk
  -- memberships recovered from the host_groups table
  have hmembership : ∀ n g,
      g ∈ (alookup (hostGroupsOf ((engineListing (encodeInventory inv)).groups.filter
            (fun p => p.1 ≠ "_meta" && p.1 ≠ "all"))) n).getD []
        ↔ ∃ h ∈ inv.hosts, h.name = n ∧ g ∈ h.groups := by
    intro n g
    rw [hfilter, mem_hostGroupsOf, hLgroups]
    constructor
    · rintro ⟨p, hp, hg, hm⟩
      rcases List.mem_map.mp hp with ⟨p0, hp0, rfl⟩
      have hlk : alookup (encodeInventory inv) p0.1 = some p0.2 :=
        (mem_iff_alookup _ p0.1 p0.2 hndD).mp (by simpa using hp0)
      have hs : (entryHostsLookup (encodeInventory inv) p0.1 n).isSome := by
        rw [entryHostsLookup, hlk]
        exact (alookup_isSome_iff_mem_akeys _ n).mpr hm
      rcases (hbridge p0.1 n).mp hs with ⟨h, hh, hname, hqh⟩
      exact ⟨h, hh, hname, hg ▸ hqh⟩
    · rintro ⟨h, hh, hname, hg⟩
      have hs : (entryHostsLookup (encodeInventory inv) g n).isSome :=
        (hbridge g n).mpr ⟨h, hh, hname, hg⟩
      rw [entryHostsLookup] at hs
      cases hlk : alookup (encodeInventory inv) g with
      | none => rw [hlk] at hs; exact absurd hs (by simp)
      | some e =>
          rw [hlk] at hs
          refine ⟨(g, ⟨akeys e.hosts, e.gvars, e.children⟩), ?_, rfl,
                  (alookup_isSome_iff_mem_akeys _ n).mp hs⟩
          exact List.mem_map_of_mem _ ((mem_iff_alookup _ g e hndD).mpr hlk)
  refine ⟨?_, ?_, ?_, ?_⟩
  · -- (A) same set of host names
    intro n
    rw [hhosts, List.map_map, ← hhv n]
    rfl
  · -- (B) same memberships per host
    intro h hh h' hh' hname g
    rw [hhosts] at hh'
    rcases List.mem_map.mp hh' with ⟨p, -, rfl⟩
    have : p.1 = h.name := hname
    rw [show (⟨p.1, p.2,
          (alookup (hostGroupsOf ((engineListing (encodeInventory inv)).groups.filter
            (fun p => p.1 ≠ "_meta" && p.1 ≠ "all"))) p.1).getD []⟩ : HostM V).groups
        = (alookup (hostGroupsOf ((engineListing (encodeInventory inv)).groups.filter
            (fun p => p.1 ≠ "_meta" && p.1 ≠ "all"))) p.1).getD [] from rfl,
        this, hmembership h.name g]
    constructor
    · rintro ⟨h2, hh2, hname2, hg2⟩
      have huniq : inv.hosts.find? (fun h3 => h3.name = h.name) = some h2 := by
        have := find?_host_by_name inv.hosts h2 hndH hh2
        rwa [hname2] at this
      rw [find?_host_by_name inv.hosts h hndH hh] at huniq
      cases huniq
      exact hg2
    · intro hg2
      exact ⟨h, hh, rfl, hg2⟩
  · -- (C) declared group variables survive
    intro g hg
    obtain ⟨e', he', hv, -⟩ :=
      groupFold_vars inv.groups (inv.hosts.foldl stepHost []) g hndG hg
        (fun e0 h0 => (hplainBase g.name e0 h0).1)
    have hfind2 : (roundTripInventory inv).groups.find? (fun gr => gr.name = g.name)
        = (alookup (encodeInventory inv) g.name).map
            (fun e => ⟨g.name, e.gvars, e.children⟩) := by
      rw [hgroupsEq, hfilter, hLgroups, List.map_map]
      exact find?_decoded_groups (encodeInventory inv) g.name
    rw [varsOfGroupName, hfind2,
        show encodeInventory inv
          = inv.groups.foldl stepGroup (inv.hosts.foldl stepHost []) from rfl, he']
    simp [hv]
  · -- (C2) every decoded group is a declared one with the same variables
    intro g' hg'
    rw [hgroupsEq, hfilter, hLgroups, List.map_map] at hg'
    rcases List.mem_map.mp hg' with ⟨p, hp, rfl⟩
    have hkey : p.1 ∈ akeys (encodeInventory inv) := mem_akeys_of_mem _ p.1 p.2 hp
    rcases List.mem_map.mp (hkeysub p.1 hkey) with ⟨g, hgmem, hgname⟩
    obtain ⟨e', he', hv, -⟩ :=
      groupFold_vars inv.groups (inv.hosts.foldl stepHost []) g hndG hgmem
        (fun e0 h0 => (hplainBase g.name e0 h0).1)
    have hlk : alookup (encodeInventory inv) p.1 = some p.2 :=
      (mem_iff_alookup _ p.1 p.2 hndD).mp hp
    have hep : e' = p.2 := by
      rw [show encodeInventory inv
            = inv.groups.foldl stepGroup (inv.hosts.foldl stepHost []) from rfl,
          ← hgname, he'] at hlk
      exact Option.some.inj hlk
    refine ⟨g, hgmem, hgname.symm, ?_⟩
    show p.2.gvars = g.gvars
    rw [← hep, hv]

/-- Claim C5, witness for the amended round trip at a concrete well-formed
inventory: one grouped host with variables and one declared group with
variables. -/
theorem inventoryRoundTrip_witness :
    ((invWebExample.hosts.map HostM.name).Nodup ∧
     (invWebExample.groups.map GroupM.name).Nodup ∧
     (∀ h ∈ invWebExample.hosts, h.groups ≠ []) ∧
     (∀ h ∈ invWebExample.hosts, ∀ g ∈ h.groups,
        g ∈ invWebExample.groups.map GroupM.name) ∧
     (∀ g ∈ invWebExample.groups, g.name ≠ "_meta" ∧ g.name ≠ "all")) ∧
    ((∀ n, n ∈ (roundTripInventory invWebExample).hosts.map HostM.name
        ↔ n ∈ invWebExample.hosts.map HostM.name) ∧
     (∀ h ∈ invWebExample.hosts, ∀ h' ∈ (roundTripInventory invWebExample).hosts,
        h'.name = h.name → ∀ g, g ∈ h'.groups ↔ g ∈ h.groups) ∧
     (∀ g ∈ invWebExample.groups,
        varsOfGroupName (roundTripInventory invWebExample).groups g.name = some g.gvars) ∧
     (∀ g' ∈ (roundTripInventory invWebExample).groups,
        ∃ g ∈ invWebExample.groups, g'.name = g.name ∧ g'.gvars = g.gvars)) := by
  refine ⟨⟨by decide, by decide, by decide, by decide, by decide⟩, ?_⟩
  exact inventoryRoundTrip String invWebExample (by decide) (by decide) (by decide)
    (by decide) (by decide)

end AnsibleSpec
